import Mathlib

/-!
Verification development for the crafting dependency resolver of the
AllenIverson Minecraft agent (source: `src/utils/inventory.js` together with
the configuration constants of `src/config/constants.js`).

The JavaScript resolver is shallowly embedded below:

* Every JS number occurring in this component is a non-negative integer
  (item ids, item counts, task counts), so counts are modelled as `Nat`;
  the only fractional constants in the source (`fuelPerItem`, `burnTime`)
  are modelled as `Rat` and are never read by the resolver.
* JS objects used as string-keyed count maps (`inventoryMap`,
  `pendingCrafts`) are modelled as total functions `String → Nat`
  (absent key = 0, matching the pervasive `m[k] || 0` reads).
* The `visited` JS `Set` is modelled as a `List String` queried by
  membership; the source only ever adds an element after a negative
  membership test, so duplicates never arise.
* The source mutates `pendingCrafts` in place; since every recursive call
  site passes a fresh copy (`{ ...pendingCrafts }`), mutation is modelled
  by returning the final value of the callee's own map alongside the
  result, and by ignoring that returned map at every recursive call site,
  exactly mirroring the copy-on-call data flow.
* The recursion of `resolveCraftingDependencies` is not structurally
  bounded for arbitrary catalogs, so the embedding is indexed by a fuel
  parameter; `none` means the fuel was exhausted.  Every theorem below is
  stated either for all fuels or for all sufficiently large fuels.
* `mcData` (the external minecraft-data catalog) is modelled by the
  interface the resolver consumes: name → item id, name → block
  existence, and item id → recipe list.  A recipe is modelled by the data
  the resolver extracts from it: the ingredient list produced by
  `getRecipeIngredients` (item name and per-craft count, per-slot
  alternatives already resolved) plus the `result.count` field.
-/

namespace AllenIverson

/-- Resolver actions (`src/utils/inventory.js`): task records tagged by
`type`, with `collect`/`smelt`/`craft` produced by the resolver and any
other task kind (place, move, follow, stop, ...) passed through
`mergeTasks` unchanged; the latter are modelled by an opaque payload. -/
inductive Task where
  | collect (target : String) (count : Nat)
  | smelt (input : String) (output : String) (count : Nat)
  | craft (target : String) (count : Nat)
  | other (payload : String)
deriving DecidableEq, Repr

/-- Result record of `resolveCraftingDependencies`: a `feasible` flag, a
task list, and an optional failure `reason` (absent on success). -/
structure RResult where
  feasible : Bool
  tasks : List Task
  reason : Option String
deriving DecidableEq, Repr

/-- The `ITEM_TO_BLOCK_SOURCE` table of `src/config/constants.js`: items
that are obtained by mining a differently-named block. -/
def ITEM_TO_BLOCK_SOURCE : List (String × String) :=
  [("cobblestone", "stone"),
   ("diamond", "diamond_ore"),
   ("coal", "coal_ore"),
   ("emerald", "emerald_ore"),
   ("lapis_lazuli", "lapis_ore"),
   ("redstone", "redstone_ore"),
   ("raw_iron", "iron_ore"),
   ("raw_gold", "gold_ore"),
   ("raw_copper", "copper_ore"),
   ("deepslate_cobblestone", "deepslate"),
   ("quartz", "nether_quartz_ore"),
   ("gold_nugget", "nether_gold_ore"),
   ("flint", "gravel"),
   ("glowstone_dust", "glowstone"),
   ("amethyst_shard", "amethyst_cluster"),
   ("wheat", "wheat"),
   ("wheat_seeds", "grass"),
   ("beetroot", "beetroots"),
   ("beetroot_seeds", "beetroots"),
   ("carrot", "carrots"),
   ("potato", "potatoes"),
   ("string", "cobweb"),
   ("prismarine_crystals", "sea_lantern"),
   ("prismarine_shard", "prismarine"),
   ("ice", "packed_ice"),
   ("clay_ball", "clay"),
   ("snowball", "snow"),
   ("snow_block", "snow_block"),
   ("sculk_catalyst", "sculk_catalyst")]

/-- Lookup in `ITEM_TO_BLOCK_SOURCE` (the `ITEM_TO_BLOCK_SOURCE[itemName]`
truthiness test of `getCollectibleBlock`; every value is a non-empty
string, so truthiness coincides with key presence). -/
def itemToBlockSource (itemName : String) : Option String :=
  (ITEM_TO_BLOCK_SOURCE.find? (fun p => p.1 == itemName)).map (fun p => p.2)

/-- Smelting-table entry of `SMELTABLE_ITEMS`: the input item and the
`fuelPerItem` constant (1/8 for every entry; never read by the resolver,
which hard-codes a throughput of 8 items per fuel unit). -/
structure SmeltInfo where
  input : String
  fuelPerItem : Rat
deriving DecidableEq, Repr

/-- The `SMELTABLE_ITEMS` table of `src/config/constants.js`:
output item name mapped to its smelting source. -/
def SMELTABLE_ITEMS : List (String × SmeltInfo) :=
  [("iron_ingot", ⟨"raw_iron", 1/8⟩),
   ("gold_ingot", ⟨"raw_gold", 1/8⟩),
   ("copper_ingot", ⟨"raw_copper", 1/8⟩),
   ("netherite_scrap", ⟨"ancient_debris", 1/8⟩),
   ("glass", ⟨"sand", 1/8⟩),
   ("terracotta", ⟨"clay", 1/8⟩),
   ("brick", ⟨"clay_ball", 1/8⟩),
   ("nether_brick", ⟨"netherrack", 1/8⟩),
   ("stone", ⟨"cobblestone", 1/8⟩),
   ("smooth_stone", ⟨"stone", 1/8⟩),
   ("smooth_sandstone", ⟨"sandstone", 1/8⟩),
   ("smooth_red_sandstone", ⟨"red_sandstone", 1/8⟩),
   ("smooth_quartz", ⟨"quartz_block", 1/8⟩),
   ("smooth_basalt", ⟨"basalt", 1/8⟩),
   ("cracked_stone_bricks", ⟨"stone_bricks", 1/8⟩),
   ("cracked_deepslate_bricks", ⟨"deepslate_bricks", 1/8⟩),
   ("cracked_deepslate_tiles", ⟨"deepslate_tiles", 1/8⟩),
   ("cracked_nether_bricks", ⟨"nether_bricks", 1/8⟩),
   ("cracked_polished_blackstone_bricks", ⟨"polished_blackstone_bricks", 1/8⟩),
   ("deepslate", ⟨"cobbled_deepslate", 1/8⟩),
   ("cooked_beef", ⟨"beef", 1/8⟩),
   ("cooked_porkchop", ⟨"porkchop", 1/8⟩),
   ("cooked_chicken", ⟨"chicken", 1/8⟩),
   ("cooked_mutton", ⟨"mutton", 1/8⟩),
   ("cooked_rabbit", ⟨"rabbit", 1/8⟩),
   ("cooked_cod", ⟨"cod", 1/8⟩),
   ("cooked_salmon", ⟨"salmon", 1/8⟩),
   ("baked_potato", ⟨"potato", 1/8⟩),
   ("dried_kelp", ⟨"kelp", 1/8⟩),
   ("charcoal", ⟨"oak_log", 1/8⟩),
   ("green_dye", ⟨"cactus", 1/8⟩),
   ("lime_dye", ⟨"sea_pickle", 1/8⟩),
   ("sponge", ⟨"wet_sponge", 1/8⟩),
   ("popped_chorus_fruit", ⟨"chorus_fruit", 1/8⟩)]

/-- Entry of the `FUEL_ITEMS` preference list: a recognized fuel item and
how many items one unit of it smelts. -/
structure FuelItem where
  name : String
  burnTime : Rat
deriving DecidableEq, Repr

/-- The `FUEL_ITEMS` list of `src/config/constants.js`: all recognized
fuel items, in preference order. -/
def FUEL_ITEMS : List FuelItem :=
  [⟨"coal", 8⟩,
   ⟨"charcoal", 8⟩,
   ⟨"oak_log", 3/2⟩,
   ⟨"oak_planks", 3/2⟩,
   ⟨"stick", 1/2⟩,
   ⟨"coal_block", 80⟩,
   ⟨"lava_bucket", 100⟩,
   ⟨"blaze_rod", 12⟩]

/-- The `getSmeltInfo` lookup of `src/utils/inventory.js`
(`SMELTABLE_ITEMS[itemName] || null`). -/
def getSmeltInfo (itemName : String) : Option SmeltInfo :=
  (SMELTABLE_ITEMS.find? (fun p => p.1 == itemName)).map (fun p => p.2)

/-- A recipe, modelled by the data the resolver extracts from the
minecraft-data recipe object: the ingredient list computed by
`getRecipeIngredients` (name and per-craft count, with per-slot
alternative lists already resolved to a single item and the shaped grid
aggregated by item name) and the optional `result.count` field. -/
structure Recipe where
  ingredients : List (String × Nat)
  resultCount : Option Nat
deriving DecidableEq, Repr

/-- The read-only interface of the minecraft-data catalog consumed by the
resolver: `itemsByName` (name to item id), `blocksByName` (does a block
with this name exist) and `recipes` (item id to recipe list; a missing
entry is the empty list, matching the `!recipes || recipes.length === 0`
checks of the source). -/
structure MCData where
  itemsByName : String → Option Nat
  blocksByName : String → Bool
  recipes : Nat → List Recipe

/-- The `getCollectibleBlock` function of `src/utils/inventory.js`: a
special block source wins; otherwise the item name itself is returned
whether or not a block of that name exists (both branches of the source
return `itemName`; the collect handler is expected to fail gracefully). -/
def getCollectibleBlock (mc : MCData) (itemName : String) : String :=
  match itemToBlockSource itemName with
  | some blockName => blockName
  | none => if mc.blocksByName itemName then itemName else itemName

/-- The `isRawMaterial` check of `src/utils/inventory.js`: unknown items
count as raw, otherwise raw means the recipe list is empty. -/
def isRawMaterial (mc : MCData) (itemName : String) : Bool :=
  match mc.itemsByName itemName with
  | none => true
  | some itemId => (mc.recipes itemId).isEmpty

/-- The `planks` preference list of `PREFERRED_INGREDIENTS`. -/
def PREFERRED_PLANKS : List String :=
  ["oak_planks", "birch_planks", "spruce_planks", "jungle_planks",
   "acacia_planks", "dark_oak_planks", "mangrove_planks", "cherry_planks",
   "bamboo_planks", "crimson_planks", "warped_planks"]

/-- The `logs` preference list of `PREFERRED_INGREDIENTS`. -/
def PREFERRED_LOGS : List String :=
  ["oak_log", "birch_log", "spruce_log", "jungle_log", "acacia_log",
   "dark_oak_log", "mangrove_log", "cherry_log", "crimson_stem",
   "warped_stem"]

/-- The `stone` preference list of `PREFERRED_INGREDIENTS`. -/
def PREFERRED_STONE : List String :=
  ["cobblestone", "stone", "cobbled_deepslate", "deepslate_cobblestone",
   "deepslate", "blackstone", "polished_blackstone"]

/-- The `dyes` preference list of `PREFERRED_INGREDIENTS`. -/
def PREFERRED_DYES : List String :=
  ["white_dye", "black_dye", "red_dye", "blue_dye", "yellow_dye",
   "green_dye"]

/-- The `getPreferenceScore` function: the index in the first preference
category containing the item (categories scanned in declaration order),
or the neutral score 100. -/
def getPreferenceScore (itemName : String) : Nat :=
  match PREFERRED_PLANKS.findIdx? (· == itemName) with
  | some i => i
  | none =>
    match PREFERRED_LOGS.findIdx? (· == itemName) with
    | some i => i
    | none =>
      match PREFERRED_STONE.findIdx? (· == itemName) with
      | some i => i
      | none =>
        match PREFERRED_DYES.findIdx? (· == itemName) with
        | some i => i
        | none => 100

/-- The `getRecipePreferenceScore` function: the summed preference score
of the recipe's ingredient occurrences (stated over the extracted
ingredient list of the `Recipe` model). -/
def getRecipePreferenceScore (r : Recipe) : Nat :=
  (r.ingredients.map (fun p => getPreferenceScore p.1)).sum

/-- The `selectBestRecipe` function: `null` on an empty list, the sole
candidate on a singleton, otherwise the first candidate whose score is
strictly smaller than every earlier best (ties keep the earlier one). -/
def selectBestRecipe : List Recipe → Option Recipe
  | [] => none
  | [r] => some r
  | r :: rest =>
    some (rest.foldl
      (fun best cand =>
        if getRecipePreferenceScore cand < getRecipePreferenceScore best then cand
        else best) r)

/-- Pointwise update of a string-keyed count map, modelling the JS
assignment `m[k] = v`. -/
def setCount (m : String → Nat) (k : String) (v : Nat) : String → Nat :=
  fun s => if s = k then v else m s

/-- Output items per craft of a recipe: the `recipe.result.count || 1`
computation of `resolveCraftingDependencies` lines 675-678 (missing
`result` or a zero/absent count default to 1). -/
def recipeOutput (recipe : Recipe) : Nat :=
  match recipe.resultCount with
  | some c => if c = 0 then 1 else c
  | none => 1

/-- Outcome of the ingredient loop of `resolveCraftingDependencies`
(lines 682-705): either some ingredient propagated an infeasible
sub-result (`failOut`, carrying the loop frame's pending map at that
moment), or all ingredients resolved (`okOut`, carrying the concatenated
sub-task lists and the pending map after all per-ingredient updates). -/
inductive LoopOut where
  | failOut (r : RResult) (pending : String → Nat)
  | okOut (tasks : List Task) (pending : String → Nat)

/-- The per-ingredient recursion of `resolveCraftingDependencies`
(lines 682-705), abstracted over the recursive `step` call.  For each
ingredient the sub-resolution is run on the current pending map (the
returned callee map is dropped: the source passes the copy
`{ ...pendingCrafts }`), an infeasible sub-result is propagated
immediately, and on success the frame's own map gains
`countPerCraft * craftTimes` for the ingredient before the next
ingredient is processed. -/
def ingredientLoop
    (step : String → Nat → (String → Nat) → Option (RResult × (String → Nat)))
    (craftTimes : Nat) :
    List (String × Nat) → (String → Nat) → Option LoopOut
  | [], pending => some (.okOut [] pending)
  | (ingredientName, countPerCraft) :: rest, pending =>
    let totalIngredientNeeded := countPerCraft * craftTimes
    match step ingredientName totalIngredientNeeded pending with
    | none => none
    | some (subResult, _) =>
      if subResult.feasible then
        let pending' := setCount pending ingredientName
          (pending ingredientName + totalIngredientNeeded)
        match ingredientLoop step craftTimes rest pending' with
        | none => none
        | some (.failOut r p) => some (.failOut r p)
        | some (.okOut ts p) => some (.okOut (subResult.tasks ++ ts) p)
      else
        some (.failOut subResult pending)

/-- The `resolveCraftingDependencies` function of `src/utils/inventory.js`
(lines 543-720), with an added fuel index bounding the recursion depth
(`none` = fuel exhausted; the JS function has no such bound).  The second
component of the returned pair is the final value of the callee's own
`pendingCrafts` map (the source mutates the map object in place; every
recursive call site passes a copy, modelled by ignoring the returned
map there). -/
def resolveCraftingDependencies (mc : MCData) :
    Nat → String → Nat → (String → Nat) → List String → (String → Nat) →
    Option (RResult × (String → Nat))
  | 0, _, _, _, _, _ => none
  | fuel + 1, itemName, count, inventoryMap, visited, pendingCrafts =>
    let haveCount := inventoryMap itemName
    let alreadyPending := pendingCrafts itemName
    let effectiveHave := haveCount + alreadyPending
    if count ≤ effectiveHave then
      some (⟨true, [], none⟩, pendingCrafts)
    else
      let needed := count - effectiveHave
      match mc.itemsByName itemName with
      | none =>
        if mc.blocksByName itemName then
          some (⟨true, [Task.collect (getCollectibleBlock mc itemName) needed], none⟩,
            pendingCrafts)
        else
          some (⟨false, [], some ("Unknown item: " ++ itemName)⟩, pendingCrafts)
      | some itemId =>
        match getSmeltInfo itemName with
        | some smeltInfo =>
          let fuelNeeded := (needed + 7) / 8
          match resolveCraftingDependencies mc fuel smeltInfo.input needed
              inventoryMap visited pendingCrafts with
          | none => none
          | some (inputResult, _) =>
            if inputResult.feasible then
              let totalFuelHave := inventoryMap "coal" + inventoryMap "charcoal"
              let fuelTasks :=
                if totalFuelHave < fuelNeeded then
                  [Task.collect "coal_ore" (fuelNeeded - totalFuelHave)]
                else []
              some (⟨true,
                inputResult.tasks ++ fuelTasks ++
                  [Task.smelt smeltInfo.input itemName needed], none⟩,
                setCount pendingCrafts itemName (pendingCrafts itemName + needed))
            else
              some (inputResult, pendingCrafts)
        | none =>
          if isRawMaterial mc itemName then
            some (⟨true, [Task.collect (getCollectibleBlock mc itemName) needed], none⟩,
              pendingCrafts)
          else if itemName ∈ visited then
            some (⟨false, [], some ("Circular dependency detected for " ++ itemName)⟩,
              pendingCrafts)
          else
            let visited' := itemName :: visited
            match selectBestRecipe (mc.recipes itemId) with
            | none =>
              some (⟨true, [Task.collect (getCollectibleBlock mc itemName) needed], none⟩,
                pendingCrafts)
            | some recipe =>
              let outputPerCraft := recipeOutput recipe
              let craftTimes := (needed + (outputPerCraft - 1)) / outputPerCraft
              match ingredientLoop
                  (fun ing n pend =>
                    resolveCraftingDependencies mc fuel ing n inventoryMap visited' pend)
                  craftTimes recipe.ingredients pendingCrafts with
              | none => none
              | some (.failOut r p) => some (r, p)
              | some (.okOut ts p) =>
                some (⟨true, ts ++ [Task.craft itemName count], none⟩,
                  setCount p itemName (p itemName + craftTimes * outputPerCraft))
  termination_by structural fuel => fuel

/-- Insertion-ordered accumulation into a string-keyed count map,
modelling `m[k] = (m[k] || 0) + v` on a JS object (new keys go last,
existing keys keep their position and accumulate). -/
def bumpCount (m : List (String × Nat)) (k : String) (v : Nat) :
    List (String × Nat) :=
  match m with
  | [] => [(k, v)]
  | (k', v') :: rest =>
    if k' = k then (k', v' + v) :: rest else (k', v') :: bumpCount rest k v

/-- Lookup in an insertion-ordered count map (`m[k] || 0`). -/
def lookupCount (m : List (String × Nat)) (k : String) : Nat :=
  match m with
  | [] => 0
  | (k', v') :: rest => if k' = k then v' else lookupCount rest k

/-- Value stored in `smeltMap` by `mergeTasks`: the input and output of
the first occurrence of the key, and the accumulated count. -/
structure SmeltEntry where
  input : String
  output : String
  count : Nat
deriving DecidableEq, Repr

/-- The string key used for `smeltMap` in `mergeTasks`. -/
def smeltKey (input output : String) : String := input ++ "->" ++ output

/-- Accumulation into `smeltMap` (`mergeTasks` lines 739-744): a fresh key
stores the task's input/output pair, an existing key only accumulates the
count. -/
def bumpSmelt (m : List (String × SmeltEntry)) (i o : String) (c : Nat) :
    List (String × SmeltEntry) :=
  match m with
  | [] => [(smeltKey i o, ⟨i, o, c⟩)]
  | (k', e) :: rest =>
    if k' = smeltKey i o then (k', ⟨e.input, e.output, e.count + c⟩) :: rest
    else (k', e) :: bumpSmelt rest i o c

/-- Lookup in `smeltMap`. -/
def lookupSmelt (m : List (String × SmeltEntry)) (k : String) :
    Option SmeltEntry :=
  match m with
  | [] => none
  | (k', e) :: rest => if k' = k then some e else lookupSmelt rest k

/-- The first grouping pass of `mergeTasks` restricted to collect tasks:
`collectMap[task.target] = (collectMap[task.target] || 0) + task.count`. -/
def collectFold (acc : List (String × Nat)) : List Task → List (String × Nat)
  | [] => acc
  | Task.collect target c :: rest => collectFold (bumpCount acc target c) rest
  | _ :: rest => collectFold acc rest

/-- The first grouping pass of `mergeTasks` restricted to craft tasks:
`craftMap[task.target] = (craftMap[task.target] || 0) + task.count`. -/
def craftFold (acc : List (String × Nat)) : List Task → List (String × Nat)
  | [] => acc
  | Task.craft target c :: rest => craftFold (bumpCount acc target c) rest
  | _ :: rest => craftFold acc rest

/-- The first grouping pass of `mergeTasks` restricted to smelt tasks. -/
def smeltFold (acc : List (String × SmeltEntry)) :
    List Task → List (String × SmeltEntry)
  | [] => acc
  | Task.smelt i o c :: rest => smeltFold (bumpSmelt acc i o c) rest
  | _ :: rest => smeltFold acc rest

/-- The smelt emission pass of `mergeTasks` (lines 758-769): walk the raw
task list and emit the grouped `smeltMap` entry at the first occurrence of
each smelt key.  The `none` branch of the lookup is unreachable because
the map was built from the same task list. -/
def smeltEmit (m : List (String × SmeltEntry)) :
    List Task → List String → List Task
  | [], _ => []
  | Task.smelt i o _ :: rest, seen =>
    if smeltKey i o ∈ seen then smeltEmit m rest seen
    else
      match lookupSmelt m (smeltKey i o) with
      | some e => Task.smelt e.input e.output e.count :: smeltEmit m rest (smeltKey i o :: seen)
      | none => smeltEmit m rest (smeltKey i o :: seen)
  | _ :: rest, seen => smeltEmit m rest seen

/-- The craft emission pass of `mergeTasks` (lines 772-778): walk the raw
task list and emit one craft per distinct target at its first occurrence,
with the grouped `craftMap` count. -/
def craftEmit (m : List (String × Nat)) : List Task → List String → List Task
  | [], _ => []
  | Task.craft target _ :: rest, seen =>
    if target ∈ seen then craftEmit m rest seen
    else Task.craft target (lookupCount m target) :: craftEmit m rest (target :: seen)
  | _ :: rest, seen => craftEmit m rest seen

/-- Discriminator for the pass-through branch of `mergeTasks` (any task
that is not collect, craft or smelt). -/
def isOtherTask : Task → Bool
  | Task.other _ => true
  | _ => false

/-- The `mergeTasks` function of `src/utils/inventory.js` (lines 727-784):
collects grouped by target and emitted first in first-occurrence order
(JS object iteration order for non-numeric string keys), then smelts
grouped by the `input->output` key in first-occurrence order, then crafts
one per distinct target in first-occurrence order with grouped counts,
then all remaining tasks unchanged. -/
def mergeTasks (tasks : List Task) : List Task :=
  let collectMap := collectFold [] tasks
  let craftMap := craftFold [] tasks
  let smeltMap := smeltFold [] tasks
  let otherTasks := tasks.filter isOtherTask
  (collectMap.map (fun p => Task.collect p.1 p.2))
    ++ smeltEmit smeltMap tasks []
    ++ craftEmit craftMap tasks []
    ++ otherTasks

/-- The `resolveAllDependencies` entry point of `src/utils/inventory.js`
(lines 796-807): run the recursive resolver with an empty visited set and
an empty pending map, propagate infeasibility unchanged, and merge the
raw task list on success. -/
def resolveAllDependencies (mc : MCData) (fuel : Nat) (itemName : String)
    (count : Nat) (inventoryMap : String → Nat) : Option RResult :=
  match resolveCraftingDependencies mc fuel itemName count inventoryMap []
      (fun _ => 0) with
  | none => none
  | some (result, _) =>
    if result.feasible then some ⟨true, mergeTasks result.tasks, none⟩
    else some result

/-! Derived definitions used only to state properties of `mergeTasks`. -/

/-- Discriminator for collect tasks. -/
def isCollectTask : Task → Bool
  | Task.collect _ _ => true
  | _ => false

/-- Discriminator for craft tasks. -/
def isCraftTask : Task → Bool
  | Task.craft _ _ => true
  | _ => false

/-- Discriminator for smelt tasks. -/
def isSmeltTask : Task → Bool
  | Task.smelt _ _ _ => true
  | _ => false

/-- Targets of the collect tasks of a list, in order, with duplicates. -/
def collectTargetsOf : List Task → List String
  | [] => []
  | Task.collect target _ :: rest => target :: collectTargetsOf rest
  | _ :: rest => collectTargetsOf rest

/-- Targets of the craft tasks of a list, in order, with duplicates. -/
def craftTargetsOf : List Task → List String
  | [] => []
  | Task.craft target _ :: rest => target :: craftTargetsOf rest
  | _ :: rest => craftTargetsOf rest

/-- Smelt keys of the smelt tasks of a list, in order, with duplicates. -/
def smeltKeysOf : List Task → List String
  | [] => []
  | Task.smelt i o _ :: rest => smeltKey i o :: smeltKeysOf rest
  | _ :: rest => smeltKeysOf rest

/-- Total count requested by the collect tasks of a list for one target. -/
def collectSumOf : List Task → String → Nat
  | [], _ => 0
  | Task.collect target c :: rest, t =>
    (if target = t then c else 0) + collectSumOf rest t
  | _ :: rest, t => collectSumOf rest t

/-- Total count written by the craft tasks of a list for one target. -/
def craftSumOf : List Task → String → Nat
  | [], _ => 0
  | Task.craft target c :: rest, t =>
    (if target = t then c else 0) + craftSumOf rest t
  | _ :: rest, t => craftSumOf rest t

/-- First occurrence of each element, skipping anything already seen. -/
def dedupSeen (seen : List String) : List String → List String
  | [] => []
  | x :: xs => if x ∈ seen then dedupSeen seen xs else x :: dedupSeen (x :: seen) xs

/-! Concrete catalogs used by the per-claim scenarios below. -/

/-- Catalog of the quantity-correctness scenario: `stick` is crafted from
2 `oak_planks` with output 4, `oak_planks` from 1 `oak_log` with output 4,
and `oak_log` is a raw material (a block of the same name exists). -/
def mcStick : MCData where
  itemsByName := fun s =>
    if s = "stick" then some 0
    else if s = "oak_planks" then some 1
    else if s = "oak_log" then some 2
    else none
  blocksByName := fun s => s = "oak_log"
  recipes := fun i =>
    if i = 0 then [⟨[("oak_planks", 2)], some 4⟩]
    else if i = 1 then [⟨[("oak_log", 1)], some 4⟩]
    else []

/-- Catalog with a smeltable target: `iron_ingot` (smelted from
`raw_iron` per `SMELTABLE_ITEMS`) and `raw_iron` as a raw material
(collected as `iron_ore` per `ITEM_TO_BLOCK_SOURCE`). -/
def mcSmelt : MCData where
  itemsByName := fun s =>
    if s = "iron_ingot" then some 0
    else if s = "raw_iron" then some 1
    else none
  blocksByName := fun _ => false
  recipes := fun _ => []

/-- Inventory holding ten `coal_block` (a recognized fuel item) and
nothing else. -/
def invCoalBlock : String → Nat := fun s => if s = "coal_block" then 10 else 0

/-- Catalog for the pending-map scenario: `itemP` is crafted from one
`itemA` and one `itemB`; `itemA` from one `itemC` with output 4;
`itemB` from two `itemA`; `itemC` is raw. -/
def mcPending : MCData where
  itemsByName := fun s =>
    if s = "itemP" then some 0
    else if s = "itemA" then some 1
    else if s = "itemB" then some 2
    else if s = "itemC" then some 3
    else none
  blocksByName := fun _ => false
  recipes := fun i =>
    if i = 0 then [⟨[("itemA", 1), ("itemB", 1)], some 1⟩]
    else if i = 1 then [⟨[("itemC", 1)], some 4⟩]
    else if i = 2 then [⟨[("itemA", 2)], some 1⟩]
    else []

/-- Catalog in which `ender_pearl` is known to the item catalog (it has
an item id) but has no recipe, no same-named block and no block-source
mapping. -/
def mcKnownRaw : MCData where
  itemsByName := fun s => if s = "ender_pearl" then some 0 else none
  blocksByName := fun _ => false
  recipes := fun _ => []

/-- Catalog with a two-cycle: `itemA` is crafted from `itemB` and
`itemB` from `itemA`. -/
def mcCircular : MCData where
  itemsByName := fun s =>
    if s = "itemA" then some 0 else if s = "itemB" then some 1 else none
  blocksByName := fun _ => false
  recipes := fun i =>
    if i = 0 then [⟨[("itemB", 1)], some 1⟩]
    else if i = 1 then [⟨[("itemA", 1)], some 1⟩]
    else []

/-- Catalog with a two-ingredient recipe whose first ingredient (`wood`,
raw) is feasible and whose second ingredient (`ghostling`) is absent from
both the item catalog and the block catalog. -/
def mcPartial : MCData where
  itemsByName := fun s =>
    if s = "widget" then some 0 else if s = "wood" then some 1 else none
  blocksByName := fun _ => false
  recipes := fun i =>
    if i = 0 then [⟨[("wood", 1), ("ghostling", 1)], some 1⟩] else []

/-! Branch lemmas for `resolveCraftingDependencies`: each one captures the
behaviour of a single branch of the source function, for one unfolding of
the fuel index. -/

/-- Sufficient effective holdings short-circuit the resolver. -/
theorem resolve_succ_enough (mc : MCData) (fuel : Nat) (itemName : String)
    (count : Nat) (inventoryMap : String → Nat) (visited : List String)
    (pendingCrafts : String → Nat)
    (h : count ≤ inventoryMap itemName + pendingCrafts itemName) :
    resolveCraftingDependencies mc (fuel + 1) itemName count inventoryMap
      visited pendingCrafts = some (⟨true, [], none⟩, pendingCrafts) := by
  simp only [resolveCraftingDependencies]
  rw [if_pos h]

/-- A name absent from both the item catalog and the block catalog fails
with the unknown-item reason. -/
theorem resolve_succ_unknown (mc : MCData) (fuel : Nat) (itemName : String)
    (count : Nat) (inventoryMap : String → Nat) (visited : List String)
    (pendingCrafts : String → Nat)
    (hneed : inventoryMap itemName + pendingCrafts itemName < count)
    (hitem : mc.itemsByName itemName = none)
    (hblock : mc.blocksByName itemName = false) :
    resolveCraftingDependencies mc (fuel + 1) itemName count inventoryMap
      visited pendingCrafts =
      some (⟨false, [], some ("Unknown item: " ++ itemName)⟩, pendingCrafts) := by
  simp only [resolveCraftingDependencies, hitem, hblock]
  rw [if_neg (by omega)]
  simp

/-- An item already on the active expansion path fails with the circular
dependency reason. -/
theorem resolve_succ_circular (mc : MCData) (fuel : Nat) (itemName : String)
    (count : Nat) (inventoryMap : String → Nat) (visited : List String)
    (pendingCrafts : String → Nat) (itemId : Nat)
    (hneed : inventoryMap itemName + pendingCrafts itemName < count)
    (hitem : mc.itemsByName itemName = some itemId)
    (hsm : getSmeltInfo itemName = none)
    (hraw : isRawMaterial mc itemName = false)
    (hvis : itemName ∈ visited) :
    resolveCraftingDependencies mc (fuel + 1) itemName count inventoryMap
      visited pendingCrafts =
      some (⟨false, [], some ("Circular dependency detected for " ++ itemName)⟩,
        pendingCrafts) := by
  simp only [resolveCraftingDependencies, hitem, hsm, hraw]
  rw [if_neg (by omega)]
  simp [hvis]

/-- The craft branch dispatches on the outcome of the ingredient loop. -/
theorem resolve_succ_craft (mc : MCData) (fuel : Nat) (itemName : String)
    (count : Nat) (inventoryMap : String → Nat) (visited : List String)
    (pendingCrafts : String → Nat) (itemId : Nat) (recipe : Recipe)
    (hneed : inventoryMap itemName + pendingCrafts itemName < count)
    (hitem : mc.itemsByName itemName = some itemId)
    (hsm : getSmeltInfo itemName = none)
    (hraw : isRawMaterial mc itemName = false)
    (hvis : itemName ∉ visited)
    (hsel : selectBestRecipe (mc.recipes itemId) = some recipe) :
    resolveCraftingDependencies mc (fuel + 1) itemName count inventoryMap
        visited pendingCrafts =
      (match ingredientLoop
          (fun ing n pend =>
            resolveCraftingDependencies mc fuel ing n inventoryMap
              (itemName :: visited) pend)
          ((count - (inventoryMap itemName + pendingCrafts itemName) +
            (recipeOutput recipe - 1)) / recipeOutput recipe)
          recipe.ingredients pendingCrafts with
        | none => none
        | some (.failOut r p) => some (r, p)
        | some (.okOut ts p) =>
          some (⟨true, ts ++ [Task.craft itemName count], none⟩,
            setCount p itemName (p itemName +
              ((count - (inventoryMap itemName + pendingCrafts itemName) +
                (recipeOutput recipe - 1)) / recipeOutput recipe) *
                recipeOutput recipe))) := by
  simp only [resolveCraftingDependencies, hitem, hsm, hraw, hsel]
  rw [if_neg (by omega)]
  simp [hvis]

/-- Claim C9: for every item and every target count, if the holdings
snapshot already records at least the target count of the item, the
resolver returns feasible with an empty action list and leaves the
pending map unchanged; the catalog is irrelevant to the outcome (the
statement holds for every `mc`, every visited set and every pending
map). -/
theorem claim9_holdings_sufficient (mc : MCData) (fuel : Nat) (itemName : String)
    (count : Nat) (inventoryMap : String → Nat) (visited : List String)
    (pendingCrafts : String → Nat) (hfuel : 1 ≤ fuel)
    (hhave : count ≤ inventoryMap itemName) :
    resolveCraftingDependencies mc fuel itemName count inventoryMap visited
      pendingCrafts = some (⟨true, [], none⟩, pendingCrafts) := by
  obtain ⟨f, rfl⟩ : ∃ f, fuel = f + 1 := ⟨fuel - 1, by omega⟩
  exact resolve_succ_enough mc f itemName count inventoryMap visited
    pendingCrafts (by omega)

/-- Witness for claim C9 at a concrete input: five sticks held, four
requested. -/
theorem claim9_witness :
    resolveCraftingDependencies mcStick 1 "stick" 4 (fun _ => 5) []
      (fun _ => 0) = some (⟨true, [], none⟩, fun _ => 0) :=
  claim9_holdings_sufficient mcStick 1 "stick" 4 (fun _ => 5) [] (fun _ => 0)
    (by decide) (by decide)

/-- Counterexample to claim C5 as stated: `ender_pearl` has no recipe, no
same-named block and no block-source mapping, holdings are empty, yet the
resolver returns feasible with a collect action rather than the claimed
unknown-item failure (the raw-material branch fires for any name the item
catalog knows, whether or not a block for it exists). -/
theorem claim5_counterexample :
    isRawMaterial mcKnownRaw "ender_pearl" = true ∧
    itemToBlockSource "ender_pearl" = none ∧
    mcKnownRaw.blocksByName "ender_pearl" = false ∧
    resolveAllDependencies mcKnownRaw 5 "ender_pearl" 1 (fun _ => 0) =
      some ⟨true, [Task.collect "ender_pearl" 1], none⟩ := by decide

/-- Claim C5 (amended): for every item name absent from the item catalog
and with no same-named block, the resolver called with insufficient
effective holdings returns infeasible with an unknown-item reason. -/
theorem claim5_unknown_item (mc : MCData) (fuel : Nat) (itemName : String)
    (count : Nat) (inventoryMap : String → Nat) (visited : List String)
    (pendingCrafts : String → Nat) (hfuel : 1 ≤ fuel)
    (hneed : inventoryMap itemName + pendingCrafts itemName < count)
    (hitem : mc.itemsByName itemName = none)
    (hblock : mc.blocksByName itemName = false) :
    resolveCraftingDependencies mc fuel itemName count inventoryMap visited
      pendingCrafts =
      some (⟨false, [], some ("Unknown item: " ++ itemName)⟩, pendingCrafts) := by
  obtain ⟨f, rfl⟩ : ∃ f, fuel = f + 1 := ⟨fuel - 1, by omega⟩
  exact resolve_succ_unknown mc f itemName count inventoryMap visited
    pendingCrafts hneed hitem hblock

/-- Witness for the amended claim C5 at a concrete input: the name
`mystery` is absent from the catalog of `mcKnownRaw`. -/
theorem claim5_witness :
    ((fun _ => (0 : Nat)) "mystery" + (fun _ => (0 : Nat)) "mystery" < 1) ∧
    resolveCraftingDependencies mcKnownRaw 1 "mystery" 1 (fun _ => 0) []
      (fun _ => 0) =
      some (⟨false, [], some ("Unknown item: " ++ "mystery")⟩, fun _ => 0) :=
  ⟨by decide,
    claim5_unknown_item mcKnownRaw 1 "mystery" 1 (fun _ => 0) [] (fun _ => 0)
      (by decide) (by decide) (by decide) (by decide)⟩

/-- Raw materials (no recipe) resolve to a single collect of the
collectible block. -/
theorem resolve_succ_raw (mc : MCData) (fuel : Nat) (itemName : String)
    (count : Nat) (inventoryMap : String → Nat) (visited : List String)
    (pendingCrafts : String → Nat) (itemId : Nat)
    (hneed : inventoryMap itemName + pendingCrafts itemName < count)
    (hitem : mc.itemsByName itemName = some itemId)
    (hsm : getSmeltInfo itemName = none)
    (hraw : isRawMaterial mc itemName = true) :
    resolveCraftingDependencies mc (fuel + 1) itemName count inventoryMap
      visited pendingCrafts =
      some (⟨true, [Task.collect (getCollectibleBlock mc itemName)
        (count - (inventoryMap itemName + pendingCrafts itemName))], none⟩,
        pendingCrafts) := by
  simp only [resolveCraftingDependencies, hitem, hsm, hraw]
  rw [if_neg (by omega)]
  simp

/-- A name absent from the item catalog but present as a block resolves
to a single collect. -/
theorem resolve_succ_unknownBlock (mc : MCData) (fuel : Nat)
    (itemName : String) (count : Nat) (inventoryMap : String → Nat)
    (visited : List String) (pendingCrafts : String → Nat)
    (hneed : inventoryMap itemName + pendingCrafts itemName < count)
    (hitem : mc.itemsByName itemName = none)
    (hblock : mc.blocksByName itemName = true) :
    resolveCraftingDependencies mc (fuel + 1) itemName count inventoryMap
      visited pendingCrafts =
      some (⟨true, [Task.collect (getCollectibleBlock mc itemName)
        (count - (inventoryMap itemName + pendingCrafts itemName))], none⟩,
        pendingCrafts) := by
  simp only [resolveCraftingDependencies, hitem, hblock]
  rw [if_neg (by omega)]
  simp

/-- The smelt branch dispatches on the recursive resolution of the
smelting input. -/
theorem resolve_succ_smelt (mc : MCData) (fuel : Nat) (itemName : String)
    (count : Nat) (inventoryMap : String → Nat) (visited : List String)
    (pendingCrafts : String → Nat) (itemId : Nat) (si : SmeltInfo)
    (hneed : inventoryMap itemName + pendingCrafts itemName < count)
    (hitem : mc.itemsByName itemName = some itemId)
    (hsm : getSmeltInfo itemName = some si) :
    resolveCraftingDependencies mc (fuel + 1) itemName count inventoryMap
        visited pendingCrafts =
      (match resolveCraftingDependencies mc fuel si.input
          (count - (inventoryMap itemName + pendingCrafts itemName))
          inventoryMap visited pendingCrafts with
        | none => none
        | some (inputResult, _) =>
          if inputResult.feasible = true then
            some (⟨true,
              inputResult.tasks ++
                (if inventoryMap "coal" + inventoryMap "charcoal" <
                    (count - (inventoryMap itemName + pendingCrafts itemName)
                      + 7) / 8
                  then [Task.collect "coal_ore"
                    ((count - (inventoryMap itemName +
                      pendingCrafts itemName) + 7) / 8 -
                      (inventoryMap "coal" + inventoryMap "charcoal"))]
                  else []) ++
                [Task.smelt si.input itemName
                  (count - (inventoryMap itemName + pendingCrafts itemName))],
              none⟩,
              setCount pendingCrafts itemName (pendingCrafts itemName +
                (count - (inventoryMap itemName + pendingCrafts itemName))))
          else some (inputResult, pendingCrafts)) := by
  simp only [resolveCraftingDependencies, hitem, hsm]
  rw [if_neg (by omega)]

/-- An item with an empty selected-recipe outcome resolves to a single
collect (the defensive `!recipes || recipes.length === 0` fallback of the
source, unreachable after the raw-material test). -/
theorem resolve_succ_emptyRecipes (mc : MCData) (fuel : Nat)
    (itemName : String) (count : Nat) (inventoryMap : String → Nat)
    (visited : List String) (pendingCrafts : String → Nat) (itemId : Nat)
    (hneed : inventoryMap itemName + pendingCrafts itemName < count)
    (hitem : mc.itemsByName itemName = some itemId)
    (hsm : getSmeltInfo itemName = none)
    (hraw : isRawMaterial mc itemName = false)
    (hvis : itemName ∉ visited)
    (hsel : selectBestRecipe (mc.recipes itemId) = none) :
    resolveCraftingDependencies mc (fuel + 1) itemName count inventoryMap
      visited pendingCrafts =
      some (⟨true, [Task.collect (getCollectibleBlock mc itemName)
        (count - (inventoryMap itemName + pendingCrafts itemName))], none⟩,
        pendingCrafts) := by
  simp only [resolveCraftingDependencies, hitem, hsm, hraw, hsel]
  rw [if_neg (by omega)]
  simp [hvis]

/-- If the ingredient loop succeeds with one step function, it succeeds
identically with any step function that agrees on all defined results. -/
theorem ingredientLoop_mono
    (step1 step2 : String → Nat → (String → Nat) →
      Option (RResult × (String → Nat)))
    (hstep : ∀ ing n pend o, step1 ing n pend = some o →
      step2 ing n pend = some o) (craftTimes : Nat) :
    ∀ (l : List (String × Nat)) (pending : String → Nat) (out : LoopOut),
      ingredientLoop step1 craftTimes l pending = some out →
      ingredientLoop step2 craftTimes l pending = some out := by
  intro l
  induction l with
  | nil => intro pending out h; exact h
  | cons head rest ih =>
    obtain ⟨ing, cpc⟩ := head
    intro pending out h
    simp only [ingredientLoop] at h ⊢
    cases hs : step1 ing (cpc * craftTimes) pending with
    | none => rw [hs] at h; cases h
    | some pr =>
      rw [hs] at h
      rw [hstep ing (cpc * craftTimes) pending pr hs]
      obtain ⟨subResult, p2⟩ := pr
      cases hfeas : subResult.feasible with
      | false => simpa [hfeas] using h
      | true =>
        simp only [hfeas, if_true] at h ⊢
        cases hrec : ingredientLoop step1 craftTimes rest
            (setCount pending ing (pending ing + cpc * craftTimes)) with
        | none => rw [hrec] at h; cases h
        | some lo =>
          rw [hrec] at h
          rw [ih _ lo hrec]
          exact h

/-- Fuel monotonicity: a defined result of the resolver is stable under
adding fuel. -/
theorem resolve_mono :
    ∀ (fuel : Nat) (mc : MCData) (itemName : String) (count : Nat)
      (inventoryMap : String → Nat) (visited : List String)
      (pendingCrafts : String → Nat) (out : RResult × (String → Nat)),
      resolveCraftingDependencies mc fuel itemName count inventoryMap visited
        pendingCrafts = some out →
      resolveCraftingDependencies mc (fuel + 1) itemName count inventoryMap
        visited pendingCrafts = some out := by
  intro fuel
  induction fuel with
  | zero =>
    intro mc itemName count inv visited pending out h
    simp [resolveCraftingDependencies] at h
  | succ f ih =>
    intro mc itemName count inv visited pending out h
    simp only [resolveCraftingDependencies] at h
    by_cases hc : count ≤ inv itemName + pending itemName
    · rw [if_pos hc] at h
      exact (resolve_succ_enough mc (f + 1) itemName count inv visited
        pending hc).trans h
    · rw [if_neg hc] at h
      have hc' : inv itemName + pending itemName < count := by omega
      cases hitem : mc.itemsByName itemName with
      | none =>
        simp only [hitem] at h
        by_cases hb : mc.blocksByName itemName = true
        · rw [if_pos hb] at h
          exact (resolve_succ_unknownBlock mc (f + 1) itemName count inv
            visited pending hc' hitem hb).trans h
        · rw [if_neg hb] at h
          have hb' : mc.blocksByName itemName = false := by
            cases hbb : mc.blocksByName itemName
            · rfl
            · exact absurd hbb hb
          exact (resolve_succ_unknown mc (f + 1) itemName count inv visited
            pending hc' hitem hb').trans h
      | some itemId =>
        simp only [hitem] at h
        cases hsm : getSmeltInfo itemName with
        | some si =>
          simp only [hsm] at h
          rw [resolve_succ_smelt mc (f + 1) itemName count inv visited
            pending itemId si hc' hitem hsm]
          cases hrec : resolveCraftingDependencies mc f si.input
              (count - (inv itemName + pending itemName)) inv visited
              pending with
          | none => rw [hrec] at h; cases h
          | some pr =>
            rw [hrec] at h
            rw [ih mc si.input _ inv visited pending pr hrec]
            exact h
        | none =>
          simp only [hsm] at h
          by_cases hraw : isRawMaterial mc itemName = true
          · rw [if_pos hraw] at h
            exact (resolve_succ_raw mc (f + 1) itemName count inv visited
              pending itemId hc' hitem hsm hraw).trans h
          · rw [if_neg hraw] at h
            have hraw' : isRawMaterial mc itemName = false := by
              cases hrr : isRawMaterial mc itemName
              · rfl
              · exact absurd hrr hraw
            by_cases hvis : itemName ∈ visited
            · rw [if_pos hvis] at h
              exact (resolve_succ_circular mc (f + 1) itemName count inv
                visited pending itemId hc' hitem hsm hraw' hvis).trans h
            · rw [if_neg hvis] at h
              cases hsel : selectBestRecipe (mc.recipes itemId) with
              | none =>
                simp only [hsel] at h
                exact (resolve_succ_emptyRecipes mc (f + 1) itemName count
                  inv visited pending itemId hc' hitem hsm hraw' hvis
                  hsel).trans h
              | some recipe =>
                simp only [hsel] at h
                rw [resolve_succ_craft mc (f + 1) itemName count inv visited
                  pending itemId recipe hc' hitem hsm hraw' hvis hsel]
                cases hloop : ingredientLoop
                    (fun ing n pend => resolveCraftingDependencies mc f ing n
                      inv (itemName :: visited) pend)
                    ((count - (inv itemName + pending itemName) +
                      (recipeOutput recipe - 1)) / recipeOutput recipe)
                    recipe.ingredients pending with
                | none => rw [hloop] at h; cases h
                | some lo =>
                  rw [hloop] at h
                  rw [ingredientLoop_mono _ _
                    (fun ing n pend o hs =>
                      ih mc ing n inv (itemName :: visited) pend o hs)
                    _ _ _ lo hloop]
                  exact h

/-- Fuel monotonicity, lifted to any larger fuel. -/
theorem resolve_mono_le (mc : MCData) (itemName : String) (count : Nat)
    (inventoryMap : String → Nat) (visited : List String)
    (pendingCrafts : String → Nat) (out : RResult × (String → Nat))
    {fuel fuel' : Nat} (hle : fuel ≤ fuel')
    (h : resolveCraftingDependencies mc fuel itemName count inventoryMap
      visited pendingCrafts = some out) :
    resolveCraftingDependencies mc fuel' itemName count inventoryMap visited
      pendingCrafts = some out := by
  obtain ⟨k, rfl⟩ := Nat.exists_eq_add_of_le hle
  clear hle
  induction k with
  | zero => exact h
  | succ n ihn =>
    rw [show fuel + (n + 1) = (fuel + n) + 1 from rfl]
    exact resolve_mono (fuel + n) mc itemName count inventoryMap visited
      pendingCrafts out ihn

/-- Claim C1: resolving 4 stick with empty holdings, empty pending map
and empty cycle guard against the stick catalog returns feasible, and the
merged plan is exactly Collect(oak_log, 1), Craft(oak_planks, 2),
Craft(stick, 4), in that order (for every recursion budget of at
least 3). -/
theorem claim1_stick_plan (fuel : Nat) (hfuel : 3 ≤ fuel) :
    resolveAllDependencies mcStick fuel "stick" 4 (fun _ => 0) =
      some ⟨true, [Task.collect "oak_log" 1, Task.craft "oak_planks" 2,
        Task.craft "stick" 4], none⟩ := by
  have hbase : resolveCraftingDependencies mcStick 3 "stick" 4 (fun _ => 0)
      [] (fun _ => 0) =
      some (⟨true, [Task.collect "oak_log" 1, Task.craft "oak_planks" 2,
        Task.craft "stick" 4], none⟩,
        setCount (setCount (fun _ => 0) "oak_planks" 2) "stick" 4) := rfl
  have hlift := resolve_mono_le mcStick "stick" 4 (fun _ => 0) []
    (fun _ => 0) _ hfuel hbase
  simp only [resolveAllDependencies, hlift]
  decide

/-- Witness for claim C1 at the concrete fuel 8. -/
theorem claim1_witness :
    (3 ≤ 8) ∧
    resolveAllDependencies mcStick 8 "stick" 4 (fun _ => 0) =
      some ⟨true, [Task.collect "oak_log" 1, Task.craft "oak_planks" 2,
        Task.craft "stick" 4], none⟩ :=
  ⟨by decide, claim1_stick_plan 8 (by decide)⟩

/-- Counterexample to claim C2 as stated: two craft actions for the same
target with counts 4 and then 3 merge into a single craft whose count is
the sum 7, not the last written count 3. -/
theorem claim2_counterexample :
    mergeTasks [Task.craft "stick" 4, Task.craft "stick" 3] =
      [Task.craft "stick" 7] ∧ (7 : Nat) ≠ 3 := by decide

/-- Counterexample to claim C3 as stated: smelting 16 `iron_ingot` with
ten `coal_block` held (a recognized fuel item of `FUEL_ITEMS`) still
emits Collect(coal_ore, 2): the fuel-stock computation sums only `coal`
and `charcoal`, not all recognized fuel items, so the held `coal_block`
stock is ignored instead of cancelling the shortfall. -/
theorem claim3_counterexample :
    ("coal_block" ∈ FUEL_ITEMS.map FuelItem.name) ∧
    invCoalBlock "coal_block" = 10 ∧
    resolveAllDependencies mcSmelt 6 "iron_ingot" 16 invCoalBlock =
      some ⟨true, [Task.collect "iron_ore" 16, Task.collect "coal_ore" 2,
        Task.smelt "raw_iron" "iron_ingot" 16], none⟩ := by decide

/-- Counterexample to claim C4 as stated: in the `mcPending` catalog the
sub-resolution of `itemA` promises `craftMultiplier * outputPerCraft`
= 1 * 4 = 4 units, but the caller resolving `itemP` observes only 1
pending unit of `itemA` (its own per-ingredient bookkeeping; the callee
update happened on a copy).  Consequently the sibling branch for `itemB`
re-resolves `itemA` from scratch and the merged plan collects `itemC`
twice and re-crafts `itemA`, which could not happen if ancestors saw the
promised surplus of 4. -/
theorem claim4_counterexample :
    (resolveCraftingDependencies mcPending 10 "itemP" 1 (fun _ => 0) []
        (fun _ => 0)).map (fun r => (r.1.feasible, r.2 "itemA")) =
      some (true, 1) ∧
    (1 : Nat) ≠ 1 * 4 ∧
    resolveAllDependencies mcPending 10 "itemP" 1 (fun _ => 0) =
      some ⟨true, [Task.collect "itemC" 2, Task.craft "itemA" 3,
        Task.craft "itemB" 1, Task.craft "itemP" 1], none⟩ := by decide

/-- The output count of a recipe is always positive. -/
theorem recipeOutput_pos (ings : List (String × Nat)) (r : Option Nat) :
    1 ≤ recipeOutput ⟨ings, r⟩ := by
  rcases r with _ | c
  · simp [recipeOutput]
  · simp only [recipeOutput]
    split <;> omega

/-- The craft multiplier is positive whenever something is still needed. -/
theorem craftTimes_pos (need out : Nat) (h1 : 1 ≤ need) (h2 : 1 ≤ out) :
    1 ≤ (need + (out - 1)) / out := by
  rw [Nat.le_div_iff_mul_le (by omega)]
  omega

/-- Claim C6: for any two distinct craftable, non-smeltable items whose
selected recipes need each other, resolving the first for any positive
count with empty holdings, empty pending map and empty cycle guard
returns infeasible with a circular-dependency reason.  The statement
holds for every fuel of at least 3, so the recursion depth is bounded
(three nested calls suffice no matter how large the requested count
is). -/
theorem claim6_circular (mc : MCData) (fuel : Nat) (a b : String)
    (ia ib ca cb : Nat) (ra rb : Option Nat) (n : Nat)
    (hfuel : 3 ≤ fuel) (hn : 1 ≤ n) (hab : a ≠ b)
    (hA : mc.itemsByName a = some ia) (hB : mc.itemsByName b = some ib)
    (hsA : getSmeltInfo a = none) (hsB : getSmeltInfo b = none)
    (hrA : mc.recipes ia = [⟨[(b, cb)], ra⟩])
    (hrB : mc.recipes ib = [⟨[(a, ca)], rb⟩])
    (hca : 1 ≤ ca) (hcb : 1 ≤ cb) :
    (resolveCraftingDependencies mc fuel a n (fun _ => 0) []
        (fun _ => 0)).map Prod.fst =
      some ⟨false, [], some ("Circular dependency detected for " ++ a)⟩ := by
  obtain ⟨f, rfl⟩ : ∃ f, fuel = f + 3 := ⟨fuel - 3, by omega⟩
  have hrawA : isRawMaterial mc a = false := by simp [isRawMaterial, hA, hrA]
  have hrawB : isRawMaterial mc b = false := by simp [isRawMaterial, hB, hrB]
  have hselA : selectBestRecipe (mc.recipes ia) = some ⟨[(b, cb)], ra⟩ := by
    rw [hrA]; rfl
  have hselB : selectBestRecipe (mc.recipes ib) = some ⟨[(a, ca)], rb⟩ := by
    rw [hrB]; rfl
  have h3 : ∀ (cnt : Nat) (pend : String → Nat), pend a < cnt →
      resolveCraftingDependencies mc (f + 1) a cnt (fun _ => 0) [b, a] pend =
        some (⟨false, [], some ("Circular dependency detected for " ++ a)⟩,
          pend) := by
    intro cnt pend hlt
    exact resolve_succ_circular mc f a cnt (fun _ => 0) [b, a] pend ia
      (by simpa using hlt) hA hsA hrawA (by simp)
  have h2 : ∀ (cnt : Nat), 1 ≤ cnt →
      resolveCraftingDependencies mc (f + 2) b cnt (fun _ => 0) [a]
          (fun _ => 0) =
        some (⟨false, [], some ("Circular dependency detected for " ++ a)⟩,
          fun _ => 0) := by
    intro cnt hcnt
    rw [show f + 2 = (f + 1) + 1 from rfl,
      resolve_succ_craft mc (f + 1) b cnt (fun _ => 0) [a] (fun _ => 0) ib
        ⟨[(a, ca)], rb⟩ (by simpa using hcnt) hB hsB hrawB
        (fun hmem => hab (List.mem_singleton.mp hmem).symm) hselB]
    simp only [ingredientLoop]
    rw [h3]
    · simp
    · exact Nat.mul_pos (show 0 < ca by omega)
        (craftTimes_pos cnt (recipeOutput ⟨[(a, ca)], rb⟩) hcnt
          (recipeOutput_pos [(a, ca)] rb))
  rw [show f + 3 = (f + 2) + 1 from rfl,
    resolve_succ_craft mc (f + 2) a n (fun _ => 0) [] (fun _ => 0) ia
      ⟨[(b, cb)], ra⟩ (by simpa using hn) hA hsA hrawA (by simp) hselA]
  simp only [ingredientLoop]
  rw [h2]
  · simp
  · exact Nat.mul_pos (show 0 < cb by omega)
      (craftTimes_pos n (recipeOutput ⟨[(b, cb)], ra⟩) hn
        (recipeOutput_pos [(b, cb)] ra))

/-- Witness for claim C6 at the concrete two-cycle catalog. -/
theorem claim6_witness :
    ((3 : Nat) ≤ 3 ∧ (1 : Nat) ≤ 1 ∧ "itemA" ≠ "itemB") ∧
    (resolveCraftingDependencies mcCircular 3 "itemA" 1 (fun _ => 0) []
        (fun _ => 0)).map Prod.fst =
      some ⟨false, [],
        some ("Circular dependency detected for " ++ "itemA")⟩ :=
  ⟨⟨by decide, by decide, by decide⟩,
    claim6_circular mcCircular 3 "itemA" "itemB" 0 1 1 1 (some 1) (some 1) 1
      (by decide) (by decide) (by decide) (by decide) (by decide) (by decide)
      (by decide) (by decide) (by decide) (by decide) (by decide)⟩

/-- Claim C3 (amended): when resolving a smeltable item whose fuel
requirement exceeds stock, the resolver counts as current fuel stock only
the held `coal` plus `charcoal` (not all recognized fuel items of
`FUEL_ITEMS`), and appends a single Collect action for the fixed default
fuel-source block `coal_ore` sized to exactly the shortfall: fuel units
needed (the ceiling of needed over the hard-coded throughput 8) minus
that coal-plus-charcoal stock.  When the stock covers the requirement no
fuel action is emitted. -/
theorem claim3_fuel_shortfall (mc : MCData) (fuel : Nat) (itemName : String)
    (count : Nat) (inventoryMap : String → Nat) (visited : List String)
    (pendingCrafts : String → Nat) (smeltInfo : SmeltInfo) (itemId : Nat)
    (inputResult : RResult) (p1 : String → Nat)
    (hneed : inventoryMap itemName + pendingCrafts itemName < count)
    (hitem : mc.itemsByName itemName = some itemId)
    (hsm : getSmeltInfo itemName = some smeltInfo)
    (hsub : resolveCraftingDependencies mc fuel smeltInfo.input
      (count - (inventoryMap itemName + pendingCrafts itemName)) inventoryMap
      visited pendingCrafts = some (inputResult, p1))
    (hfeas : inputResult.feasible = true) :
    resolveCraftingDependencies mc (fuel + 1) itemName count inventoryMap
        visited pendingCrafts =
      some (⟨true,
        inputResult.tasks ++
          (if inventoryMap "coal" + inventoryMap "charcoal" <
              (count - (inventoryMap itemName + pendingCrafts itemName) + 7) / 8
            then [Task.collect "coal_ore"
              ((count - (inventoryMap itemName + pendingCrafts itemName) + 7) / 8 -
                (inventoryMap "coal" + inventoryMap "charcoal"))]
            else []) ++
          [Task.smelt smeltInfo.input itemName
            (count - (inventoryMap itemName + pendingCrafts itemName))], none⟩,
        setCount pendingCrafts itemName (pendingCrafts itemName +
          (count - (inventoryMap itemName + pendingCrafts itemName)))) := by
  simp only [resolveCraftingDependencies, hitem, hsm]
  rw [if_neg (by omega)]
  simp [hsub, hfeas]

/-- Witness for the amended claim C3: smelting 16 iron ingots with empty
coal and charcoal stock appends Collect(coal_ore, 2) = ceil(16/8) - 0. -/
theorem claim3_witness :
    (invCoalBlock "iron_ingot" + (fun _ => (0 : Nat)) "iron_ingot" < 16) ∧
    resolveCraftingDependencies mcSmelt 2 "iron_ingot" 16 invCoalBlock []
        (fun _ => 0) =
      some (⟨true, [Task.collect "iron_ore" 16, Task.collect "coal_ore" 2,
          Task.smelt "raw_iron" "iron_ingot" 16], none⟩,
        setCount (fun _ => 0) "iron_ingot" 16) :=
  ⟨by decide,
    claim3_fuel_shortfall mcSmelt 1 "iron_ingot" 16 invCoalBlock []
      (fun _ => 0) ⟨"raw_iron", 1/8⟩ 0 ⟨true, [Task.collect "iron_ore" 16], none⟩
      (fun _ => 0) (by decide) (by decide) rfl rfl rfl⟩

/-- If the ingredient loop completes, the pending-map entries of keys
that are not ingredient names of the loop are unchanged (the loop only
performs the per-ingredient `pending[ing] += ...` updates). -/
theorem ingredientLoop_ok_preserves
    (step : String → Nat → (String → Nat) → Option (RResult × (String → Nat)))
    (craftTimes : Nat) :
    ∀ (l : List (String × Nat)) (pending p : String → Nat) (ts : List Task)
      (k : String),
      ingredientLoop step craftTimes l pending = some (.okOut ts p) →
      k ∉ l.map Prod.fst → p k = pending k := by
  intro l
  induction l with
  | nil =>
    intro pending p ts k h _
    simp only [ingredientLoop, Option.some.injEq, LoopOut.okOut.injEq] at h
    rw [← h.2]
  | cons head rest ih =>
    obtain ⟨ing, cpc⟩ := head
    intro pending p ts k h hk
    simp only [List.map_cons, List.mem_cons, not_or] at hk
    obtain ⟨hkne, hkrest⟩ := hk
    simp only [ingredientLoop] at h
    cases hstep : step ing (cpc * craftTimes) pending with
    | none => rw [hstep] at h; cases h
    | some pr =>
      obtain ⟨subResult, p2⟩ := pr
      rw [hstep] at h
      cases hfeas : subResult.feasible with
      | false => simp [hfeas] at h
      | true =>
        simp only [hfeas, if_true] at h
        cases hrec : ingredientLoop step craftTimes rest
            (setCount pending ing (pending ing + cpc * craftTimes)) with
        | none => rw [hrec] at h; cases h
        | some lo =>
          rw [hrec] at h
          cases lo with
          | failOut r q => simp at h
          | okOut ts2 q =>
            simp only [Option.some.injEq, LoopOut.okOut.injEq] at h
            obtain ⟨-, hq⟩ := h
            subst hq
            rw [ih _ _ _ _ hrec hkrest]
            simp [setCount, hkne]

/-- Claim C4 (amended): after all ingredients of a craftable item
resolve, the resolver adds `craftMultiplier * outputPerCraft` to the
pending-map entry for that item in its own frame's map (the final map it
returns), so that entry ends at its incoming value plus the promised
surplus.  Ancestor calls do not observe this update: every recursive
call site passes a copy of the pending map, so ancestors see only their
own per-ingredient additions (see the claim C4 counterexample). -/
theorem claim4_pending_update (mc : MCData) (fuel : Nat) (itemName : String)
    (count : Nat) (inventoryMap : String → Nat) (visited : List String)
    (pendingCrafts : String → Nat) (itemId : Nat) (recipe : Recipe)
    (craftTimes : Nat) (ts : List Task) (p : String → Nat)
    (hneed : inventoryMap itemName + pendingCrafts itemName < count)
    (hitem : mc.itemsByName itemName = some itemId)
    (hsm : getSmeltInfo itemName = none)
    (hraw : isRawMaterial mc itemName = false)
    (hvis : itemName ∉ visited)
    (hsel : selectBestRecipe (mc.recipes itemId) = some recipe)
    (hct : craftTimes = (count - (inventoryMap itemName + pendingCrafts itemName) +
      (recipeOutput recipe - 1)) / recipeOutput recipe)
    (hloop : ingredientLoop
      (fun ing n pend => resolveCraftingDependencies mc fuel ing n inventoryMap
        (itemName :: visited) pend)
      craftTimes recipe.ingredients pendingCrafts = some (.okOut ts p))
    (hself : itemName ∉ recipe.ingredients.map Prod.fst) :
    resolveCraftingDependencies mc (fuel + 1) itemName count inventoryMap
        visited pendingCrafts =
      some (⟨true, ts ++ [Task.craft itemName count], none⟩,
        setCount p itemName (p itemName + craftTimes * recipeOutput recipe)) ∧
    setCount p itemName (p itemName + craftTimes * recipeOutput recipe)
        itemName = pendingCrafts itemName + craftTimes * recipeOutput recipe := by
  constructor
  · rw [resolve_succ_craft mc fuel itemName count inventoryMap visited
      pendingCrafts itemId recipe hneed hitem hsm hraw hvis hsel, ← hct, hloop]
  · rw [show setCount p itemName (p itemName + craftTimes * recipeOutput recipe)
        itemName = p itemName + craftTimes * recipeOutput recipe by
      simp [setCount]]
    rw [ingredientLoop_ok_preserves _ _ recipe.ingredients pendingCrafts p ts
      itemName hloop hself]

/-- Witness for the amended claim C4: resolving one `itemA` (output 4
per craft) leaves the frame's own pending entry for `itemA` at 0 + 1 * 4. -/
theorem claim4_witness :
    (ingredientLoop
      (fun ing n pend => resolveCraftingDependencies mcPending 1 ing n
        (fun _ => 0) ("itemA" :: []) pend)
      1 [("itemC", 1)] (fun _ => 0) =
        some (.okOut [Task.collect "itemC" 1] (setCount (fun _ => 0) "itemC" 1))) ∧
    resolveCraftingDependencies mcPending 2 "itemA" 1 (fun _ => 0) []
        (fun _ => 0) =
      some (⟨true, [Task.collect "itemC" 1, Task.craft "itemA" 1], none⟩,
        setCount (setCount (fun _ => 0) "itemC" 1) "itemA"
          (setCount (fun _ => 0) "itemC" 1 "itemA" + 1 * 4)) ∧
    setCount (setCount (fun _ => 0) "itemC" 1) "itemA"
        (setCount (fun _ => 0) "itemC" 1 "itemA" + 1 * 4) "itemA" =
      (fun _ : String => (0 : Nat)) "itemA" + 1 * 4 :=
  ⟨rfl,
    (claim4_pending_update mcPending 1 "itemA" 1 (fun _ => 0) [] (fun _ => 0)
      1 ⟨[("itemC", 1)], some 4⟩ 1 [Task.collect "itemC" 1]
      (setCount (fun _ => 0) "itemC" 1) (by decide) (by decide) (by decide)
      (by decide) (by simp) (by decide) (by decide) rfl (by decide)).1,
    (claim4_pending_update mcPending 1 "itemA" 1 (fun _ => 0) [] (fun _ => 0)
      1 ⟨[("itemC", 1)], some 4⟩ 1 [Task.collect "itemC" 1]
      (setCount (fun _ => 0) "itemC" 1) (by decide) (by decide) (by decide)
      (by decide) (by simp) (by decide) (by decide) rfl (by decide)).2⟩

/-- If every infeasible step result carries an empty task list, then any
failure propagated by the ingredient loop carries an empty task list. -/
theorem ingredientLoop_fail_nil
    (step : String → Nat → (String → Nat) → Option (RResult × (String → Nat)))
    (craftTimes : Nat)
    (hstep : ∀ ing n pend r p, step ing n pend = some (r, p) →
      r.feasible = false → r.tasks = []) :
    ∀ (l : List (String × Nat)) (pending : String → Nat) (r : RResult)
      (p : String → Nat),
      ingredientLoop step craftTimes l pending = some (.failOut r p) →
      r.tasks = [] := by
  intro l
  induction l with
  | nil => intro pending r p h; simp [ingredientLoop] at h
  | cons head rest ih =>
    obtain ⟨ing, cpc⟩ := head
    intro pending r p h
    simp only [ingredientLoop] at h
    cases hs : step ing (cpc * craftTimes) pending with
    | none => rw [hs] at h; cases h
    | some pr =>
      obtain ⟨subResult, p2⟩ := pr
      rw [hs] at h
      cases hfeas : subResult.feasible with
      | true =>
        simp only [hfeas, if_true] at h
        cases hrec : ingredientLoop step craftTimes rest
            (setCount pending ing (pending ing + cpc * craftTimes)) with
        | none => rw [hrec] at h; cases h
        | some lo =>
          rw [hrec] at h
          cases lo with
          | failOut r2 q =>
            simp only [Option.some.injEq, LoopOut.failOut.injEq] at h
            obtain ⟨h1, -⟩ := h
            subst h1
            exact ih _ _ _ hrec
          | okOut ts q => simp at h
      | false =>
        simp only [hfeas, Bool.false_eq_true, if_false, Option.some.injEq,
          LoopOut.failOut.injEq] at h
        obtain ⟨h1, -⟩ := h
        subst h1
        exact hstep ing (cpc * craftTimes) pending subResult p2 hs hfeas

/-- Any infeasible result of the recursive resolver carries an empty
task list, for every fuel, input and state. -/
theorem resolve_infeasible_no_tasks :
    ∀ (fuel : Nat) (mc : MCData) (itemName : String) (count : Nat)
      (inventoryMap : String → Nat) (visited : List String)
      (pendingCrafts p : String → Nat) (r : RResult),
      resolveCraftingDependencies mc fuel itemName count inventoryMap visited
        pendingCrafts = some (r, p) →
      r.feasible = false → r.tasks = [] := by
  intro fuel
  induction fuel with
  | zero =>
    intro mc itemName count inv visited pending p r h
    simp [resolveCraftingDependencies] at h
  | succ f ih =>
    intro mc itemName count inv visited pending p r h hfeas
    simp only [resolveCraftingDependencies] at h
    by_cases hc : count ≤ inv itemName + pending itemName
    · rw [if_pos hc, Option.some.injEq, Prod.mk.injEq] at h
      rw [← h.1] at hfeas
      simp at hfeas
    · rw [if_neg hc] at h
      cases hitem : mc.itemsByName itemName with
      | none =>
        simp only [hitem] at h
        by_cases hb : mc.blocksByName itemName = true
        · rw [if_pos hb, Option.some.injEq, Prod.mk.injEq] at h
          rw [← h.1] at hfeas
          simp at hfeas
        · rw [if_neg hb, Option.some.injEq, Prod.mk.injEq] at h
          rw [← h.1]
      | some itemId =>
        simp only [hitem] at h
        cases hsm : getSmeltInfo itemName with
        | some si =>
          simp only [hsm] at h
          cases hrec : resolveCraftingDependencies mc f si.input
              (count - (inv itemName + pending itemName)) inv visited
              pending with
          | none => rw [hrec] at h; cases h
          | some pr =>
            obtain ⟨inputResult, p1⟩ := pr
            rw [hrec] at h
            cases hif : inputResult.feasible with
            | true =>
              simp only [hif, if_true, Option.some.injEq, Prod.mk.injEq] at h
              rw [← h.1] at hfeas
              simp at hfeas
            | false =>
              simp only [hif, Bool.false_eq_true, if_false, Option.some.injEq,
                Prod.mk.injEq] at h
              rw [← h.1] at hfeas
              rw [← h.1]
              exact ih mc si.input _ inv visited pending p1 inputResult
                hrec hfeas
        | none =>
          simp only [hsm] at h
          by_cases hraw : isRawMaterial mc itemName = true
          · rw [if_pos hraw, Option.some.injEq, Prod.mk.injEq] at h
            rw [← h.1] at hfeas
            simp at hfeas
          · rw [if_neg hraw] at h
            by_cases hvis : itemName ∈ visited
            · rw [if_pos hvis, Option.some.injEq, Prod.mk.injEq] at h
              rw [← h.1]
            · rw [if_neg hvis] at h
              cases hsel : selectBestRecipe (mc.recipes itemId) with
              | none =>
                simp only [hsel, Option.some.injEq, Prod.mk.injEq] at h
                rw [← h.1] at hfeas
                simp at hfeas
              | some recipe =>
                simp only [hsel] at h
                cases hloop : ingredientLoop
                    (fun ing n pend => resolveCraftingDependencies mc f ing n
                      inv (itemName :: visited) pend)
                    ((count - (inv itemName + pending itemName) +
                      (recipeOutput recipe - 1)) / recipeOutput recipe)
                    recipe.ingredients pending with
                | none => rw [hloop] at h; cases h
                | some lo =>
                  rw [hloop] at h
                  cases lo with
                  | failOut r2 q =>
                    simp only [Option.some.injEq, Prod.mk.injEq] at h
                    rw [← h.1]
                    exact ingredientLoop_fail_nil _ _
                      (fun ing n pend r' p' hs hf =>
                        ih mc ing n inv (itemName :: visited) pend p' r' hs hf)
                      recipe.ingredients pending r2 q hloop
                  | okOut ts q =>
                    simp only [Option.some.injEq, Prod.mk.injEq] at h
                    rw [← h.1] at hfeas
                    simp at hfeas

/-- Claim C7: infeasibility is fail-fast and never yields a partial plan:
(1) every infeasible result of the resolver carries an empty action list;
(2) as soon as one ingredient's sub-resolution is infeasible, the
ingredient loop returns that very infeasible result, discarding the
remaining ingredients and the feasible siblings' accumulated actions;
(3) the top-level entry point propagates an infeasible result unchanged,
so it too carries an empty action list. -/
theorem claim7_fail_fast :
    (∀ (fuel : Nat) (mc : MCData) (itemName : String) (count : Nat)
        (inventoryMap : String → Nat) (visited : List String)
        (pendingCrafts p : String → Nat) (r : RResult),
        resolveCraftingDependencies mc fuel itemName count inventoryMap
          visited pendingCrafts = some (r, p) →
        r.feasible = false → r.tasks = []) ∧
    (∀ (fuel : Nat) (mc : MCData) (inventoryMap : String → Nat)
        (visited : List String) (craftTimes : Nat) (ingredientName : String)
        (countPerCraft : Nat) (rest : List (String × Nat))
        (pending p : String → Nat) (r : RResult),
        resolveCraftingDependencies mc fuel ingredientName
          (countPerCraft * craftTimes) inventoryMap visited pending =
            some (r, p) →
        r.feasible = false →
        ingredientLoop (fun ing n pend => resolveCraftingDependencies mc fuel
            ing n inventoryMap visited pend) craftTimes
            ((ingredientName, countPerCraft) :: rest) pending =
          some (.failOut r pending)) ∧
    (∀ (fuel : Nat) (mc : MCData) (itemName : String) (count : Nat)
        (inventoryMap : String → Nat) (r : RResult),
        resolveAllDependencies mc fuel itemName count inventoryMap = some r →
        r.feasible = false → r.tasks = []) := by
  refine ⟨resolve_infeasible_no_tasks, ?_, ?_⟩
  · intro fuel mc inv visited craftTimes ing cpc rest pending p r h hfeas
    simp only [ingredientLoop, h, hfeas, Bool.false_eq_true, if_false]
  · intro fuel mc itemName count inv r h hfeas
    simp only [resolveAllDependencies] at h
    cases hrec : resolveCraftingDependencies mc fuel itemName count inv []
        (fun _ => 0) with
    | none => rw [hrec] at h; cases h
    | some pr =>
      obtain ⟨result, p1⟩ := pr
      rw [hrec] at h
      cases hif : result.feasible with
      | true =>
        simp only [hif, if_true, Option.some.injEq] at h
        rw [← h] at hfeas
        simp at hfeas
      | false =>
        simp only [hif, Bool.false_eq_true, if_false, Option.some.injEq] at h
        subst h
        exact resolve_infeasible_no_tasks fuel mc itemName count inv []
          (fun _ => 0) p1 result hrec hif

/-- Witness for claim C7: in the `mcPartial` catalog the first ingredient
(`wood`) resolves feasibly but the second (`ghostling`) is unknown, and
the overall result is infeasible with an empty action list. -/
theorem claim7_witness :
    (resolveCraftingDependencies mcPartial 5 "widget" 1 (fun _ => 0) []
        (fun _ => 0) =
      some (⟨false, [], some "Unknown item: ghostling"⟩,
        setCount (fun _ => 0) "wood" 1)) ∧
    (⟨false, [], some "Unknown item: ghostling"⟩ : RResult).tasks = [] :=
  ⟨rfl,
    claim7_fail_fast.1 5 mcPartial "widget" 1 (fun _ => 0) [] (fun _ => 0)
      (setCount (fun _ => 0) "wood" 1)
      ⟨false, [], some "Unknown item: ghostling"⟩ rfl rfl⟩

/-! Association-map lemmas for the grouping passes of `mergeTasks`. -/

/-- Lookup after an accumulation step. -/
theorem lookupCount_bump (m : List (String × Nat)) (k t : String) (v : Nat) :
    lookupCount (bumpCount m k v) t =
      lookupCount m t + (if k = t then v else 0) := by
  induction m with
  | nil =>
    by_cases hkt : k = t <;> simp [bumpCount, lookupCount, hkt]
  | cons hd tl ih =>
    obtain ⟨a, b⟩ := hd
    by_cases hak : a = k
    · subst hak
      by_cases hat : a = t
      · subst hat
        simp [bumpCount, lookupCount]
      · simp [bumpCount, lookupCount, hat]
    · simp only [bumpCount, if_neg hak, lookupCount]
      by_cases hat : a = t
      · subst hat
        have hka : ¬(k = a) := fun hh => hak hh.symm
        simp [hka]
      · simp only [if_neg hat]
        exact ih

/-- Keys after an accumulation step: an existing key keeps the key list,
a fresh key is appended. -/
theorem keys_bump (m : List (String × Nat)) (k : String) (v : Nat) :
    (bumpCount m k v).map Prod.fst =
      if k ∈ m.map Prod.fst then m.map Prod.fst
      else m.map Prod.fst ++ [k] := by
  induction m with
  | nil => simp [bumpCount]
  | cons hd tl ih =>
    obtain ⟨a, b⟩ := hd
    by_cases hak : a = k
    · subst hak
      simp [bumpCount]
    · have hka : ¬(k = a) := fun hh => hak hh.symm
      simp only [bumpCount, if_neg hak, List.map_cons, ih, List.mem_cons]
      by_cases hk : k ∈ tl.map Prod.fst
      · simp [hk, hka]
      · simp [hk, hka]

/-- Accumulating a fresh key appends it at the end. -/
theorem bump_of_notMem (m : List (String × Nat)) (k : String) (v : Nat)
    (h : k ∉ m.map Prod.fst) : bumpCount m k v = m ++ [(k, v)] := by
  induction m with
  | nil => simp [bumpCount]
  | cons hd tl ih =>
    obtain ⟨a, b⟩ := hd
    simp only [List.map_cons, List.mem_cons, not_or] at h
    obtain ⟨h1, h2⟩ := h
    have hak : ¬(a = k) := fun hh => h1 hh.symm
    simp only [bumpCount, if_neg hak, List.cons_append, List.cons.injEq,
      true_and]
    exact ih h2

/-- Accumulation preserves distinctness of keys. -/
theorem nodup_keys_bump (m : List (String × Nat)) (k : String) (v : Nat)
    (h : (m.map Prod.fst).Nodup) : ((bumpCount m k v).map Prod.fst).Nodup := by
  rw [keys_bump]
  by_cases hk : k ∈ m.map Prod.fst
  · simpa [hk] using h
  · rw [if_neg hk]
    simp only [List.nodup_append, List.nodup_cons, List.not_mem_nil,
      not_false_iff, List.nodup_nil, and_true, true_and, h]
    intro x hx
    simp only [List.mem_singleton]
    intro hxk
    exact hk (hxk ▸ hx)

/-- Lookup through the collect grouping pass: the accumulated count plus
the total demanded by the collect tasks. -/
theorem collectFold_lookup (ts : List Task) :
    ∀ (acc : List (String × Nat)) (t : String),
      lookupCount (collectFold acc ts) t =
        lookupCount acc t + collectSumOf ts t := by
  induction ts with
  | nil => intro acc t; simp [collectFold, collectSumOf]
  | cons hd tl ih =>
    intro acc t
    cases hd with
    | collect target c =>
      simp only [collectFold, collectSumOf, ih, lookupCount_bump]
      split <;> omega
    | smelt i o c => simp only [collectFold, collectSumOf, ih]
    | craft target c => simp only [collectFold, collectSumOf, ih]
    | other s => simp only [collectFold, collectSumOf, ih]

/-- Lookup through the craft grouping pass: the accumulated count plus
the total written by the craft tasks. -/
theorem craftFold_lookup (ts : List Task) :
    ∀ (acc : List (String × Nat)) (t : String),
      lookupCount (craftFold acc ts) t =
        lookupCount acc t + craftSumOf ts t := by
  induction ts with
  | nil => intro acc t; simp [craftFold, craftSumOf]
  | cons hd tl ih =>
    intro acc t
    cases hd with
    | craft target c =>
      simp only [craftFold, craftSumOf, ih, lookupCount_bump]
      split <;> omega
    | smelt i o c => simp only [craftFold, craftSumOf, ih]
    | collect target c => simp only [craftFold, craftSumOf, ih]
    | other s => simp only [craftFold, craftSumOf, ih]

/-- Two seen-lists with the same members deduplicate identically. -/
theorem dedupSeen_congr (l : List String) :
    ∀ (s1 s2 : List String), (∀ x, x ∈ s1 ↔ x ∈ s2) →
      dedupSeen s1 l = dedupSeen s2 l := by
  induction l with
  | nil => intro s1 s2 _; rfl
  | cons x xs ih =>
    intro s1 s2 h
    simp only [dedupSeen]
    by_cases hx : x ∈ s1
    · rw [if_pos hx, if_pos ((h x).mp hx)]
      exact ih s1 s2 h
    · rw [if_neg hx, if_neg (fun hh => hx ((h x).mpr hh))]
      refine congrArg _ (ih (x :: s1) (x :: s2) ?_)
      intro y
      simp [h y]

/-- The deduplicated list is duplicate-free and avoids the seen list. -/
theorem dedupSeen_spec (l : List String) :
    ∀ (seen : List String),
      (dedupSeen seen l).Nodup ∧ ∀ x ∈ dedupSeen seen l, x ∉ seen := by
  induction l with
  | nil => intro seen; simp [dedupSeen]
  | cons x xs ih =>
    intro seen
    simp only [dedupSeen]
    by_cases hx : x ∈ seen
    · rw [if_pos hx]
      exact ih seen
    · rw [if_neg hx]
      obtain ⟨hnd, hmem⟩ := ih (x :: seen)
      constructor
      · refine List.nodup_cons.mpr ⟨fun hc => ?_, hnd⟩
        exact hmem x hc (List.mem_cons_self x seen)
      · intro y hy
        rcases List.mem_cons.mp hy with rfl | hy'
        · exact hx
        · intro hys
          exact hmem y hy' (List.mem_cons_of_mem x hys)

/-- Deduplicating a duplicate-free list disjoint from the seen list is
the identity. -/
theorem dedupSeen_eq_self (l : List String) :
    ∀ (seen : List String), l.Nodup → (∀ x ∈ l, x ∉ seen) →
      dedupSeen seen l = l := by
  induction l with
  | nil => intro seen _ _; rfl
  | cons x xs ih =>
    intro seen hnd hdisj
    obtain ⟨hx, hxs⟩ := List.nodup_cons.mp hnd
    simp only [dedupSeen, if_neg (hdisj x (List.mem_cons_self x xs))]
    refine congrArg _ (ih (x :: seen) hxs ?_)
    intro y hy
    simp only [List.mem_cons, not_or]
    exact ⟨fun hyx => hx (hyx ▸ hy), hdisj y (List.mem_cons_of_mem x hy)⟩

/-- Keys produced by the collect grouping pass: the accumulator's keys
followed by the first occurrences of the collect targets. -/
theorem collectFold_keys (ts : List Task) :
    ∀ (acc : List (String × Nat)),
      (collectFold acc ts).map Prod.fst =
        acc.map Prod.fst ++
          dedupSeen (acc.map Prod.fst) (collectTargetsOf ts) := by
  induction ts with
  | nil => intro acc; simp [collectFold, collectTargetsOf, dedupSeen]
  | cons hd tl ih =>
    intro acc
    cases hd with
    | collect target c =>
      simp only [collectFold, collectTargetsOf, ih, keys_bump, dedupSeen]
      by_cases hk : target ∈ acc.map Prod.fst
      · rw [if_pos hk, if_pos hk]
      · rw [if_neg hk, if_neg hk, List.append_assoc, List.singleton_append]
        refine congrArg _ (congrArg _ ?_)
        refine dedupSeen_congr _ _ _ ?_
        intro y
        simp [or_comm]
    | smelt i o c => simp only [collectFold, collectTargetsOf, ih]
    | craft target c => simp only [collectFold, collectTargetsOf, ih]
    | other s => simp only [collectFold, collectTargetsOf, ih]

/-- Keys produced by the craft grouping pass. -/
theorem craftFold_keys (ts : List Task) :
    ∀ (acc : List (String × Nat)),
      (craftFold acc ts).map Prod.fst =
        acc.map Prod.fst ++
          dedupSeen (acc.map Prod.fst) (craftTargetsOf ts) := by
  induction ts with
  | nil => intro acc; simp [craftFold, craftTargetsOf, dedupSeen]
  | cons hd tl ih =>
    intro acc
    cases hd with
    | craft target c =>
      simp only [craftFold, craftTargetsOf, ih, keys_bump, dedupSeen]
      by_cases hk : target ∈ acc.map Prod.fst
      · rw [if_pos hk, if_pos hk]
      · rw [if_neg hk, if_neg hk, List.append_assoc, List.singleton_append]
        refine congrArg _ (congrArg _ ?_)
        refine dedupSeen_congr _ _ _ ?_
        intro y
        simp [or_comm]
    | smelt i o c => simp only [craftFold, craftTargetsOf, ih]
    | collect target c => simp only [craftFold, craftTargetsOf, ih]
    | other s => simp only [craftFold, craftTargetsOf, ih]

/-- An association list with distinct keys is the list of its keys paired
with their looked-up values. -/
theorem assoc_eq_keys_map (m : List (String × Nat)) :
    (m.map Prod.fst).Nodup →
      m = (m.map Prod.fst).map (fun t => (t, lookupCount m t)) := by
  induction m with
  | nil => intro _; rfl
  | cons hd tl ih =>
    intro h
    obtain ⟨k, v⟩ := hd
    simp only [List.map_cons] at h
    obtain ⟨hk, htl⟩ := List.nodup_cons.mp h
    simp only [List.map_cons, List.cons.injEq]
    constructor
    · simp [lookupCount]
    · have hcong : (tl.map Prod.fst).map
          (fun t => (t, lookupCount ((k, v) :: tl) t)) =
          (tl.map Prod.fst).map (fun t => (t, lookupCount tl t)) := by
        refine List.map_congr_left ?_
        intro t ht
        have htk : ¬(k = t) := fun hh => hk (hh ▸ ht)
        simp [lookupCount, htk]
      rw [hcong]
      exact ih htl

/-- The collect grouping map, in closed form: first occurrences of the
collect targets, each paired with its summed count. -/
theorem collectFold_eq (ts : List Task) :
    collectFold [] ts =
      (dedupSeen [] (collectTargetsOf ts)).map
        (fun t => (t, collectSumOf ts t)) := by
  have hkeys : (collectFold [] ts).map Prod.fst =
      dedupSeen [] (collectTargetsOf ts) := by
    simpa using collectFold_keys ts []
  have hnd : ((collectFold [] ts).map Prod.fst).Nodup := by
    rw [hkeys]
    exact (dedupSeen_spec _ _).1
  rw [assoc_eq_keys_map (collectFold [] ts) hnd, hkeys]
  refine List.map_congr_left ?_
  intro t _
  have hl := collectFold_lookup ts [] t
  simp only [lookupCount] at hl
  simp [hl]

/-- The craft grouping map, in closed form. -/
theorem craftFold_eq (ts : List Task) :
    craftFold [] ts =
      (dedupSeen [] (craftTargetsOf ts)).map
        (fun t => (t, craftSumOf ts t)) := by
  have hkeys : (craftFold [] ts).map Prod.fst =
      dedupSeen [] (craftTargetsOf ts) := by
    simpa using craftFold_keys ts []
  have hnd : ((craftFold [] ts).map Prod.fst).Nodup := by
    rw [hkeys]
    exact (dedupSeen_spec _ _).1
  rw [assoc_eq_keys_map (craftFold [] ts) hnd, hkeys]
  refine List.map_congr_left ?_
  intro t _
  have hl := craftFold_lookup ts [] t
  simp only [lookupCount] at hl
  simp [hl]

/-- The craft emission pass, in closed form: one craft per first
occurrence of a craft target, with the grouped count. -/
theorem craftEmit_eq (m : List (String × Nat)) :
    ∀ (ts : List Task) (seen : List String),
      craftEmit m ts seen =
        (dedupSeen seen (craftTargetsOf ts)).map
          (fun t => Task.craft t (lookupCount m t)) := by
  intro ts
  induction ts with
  | nil => intro seen; rfl
  | cons hd tl ih =>
    intro seen
    cases hd with
    | craft target c =>
      simp only [craftEmit, craftTargetsOf, dedupSeen]
      by_cases hs : target ∈ seen
      · rw [if_pos hs, if_pos hs]
        exact ih seen
      · rw [if_neg hs, if_neg hs]
        simp [ih]
    | collect t c =>
      simp only [craftEmit, craftTargetsOf]
      exact ih seen
    | smelt i o c =>
      simp only [craftEmit, craftTargetsOf]
      exact ih seen
    | other s =>
      simp only [craftEmit, craftTargetsOf]
      exact ih seen

/-- Everything the smelt emission pass emits is a smelt task. -/
theorem mem_smeltEmit (m : List (String × SmeltEntry)) :
    ∀ (ts : List Task) (seen : List String) (x : Task),
      x ∈ smeltEmit m ts seen → ∃ i o c, x = Task.smelt i o c := by
  intro ts
  induction ts with
  | nil => intro seen x hx; cases hx
  | cons hd tl ih =>
    intro seen x hx
    cases hd with
    | smelt i o c =>
      simp only [smeltEmit] at hx
      by_cases hs : smeltKey i o ∈ seen
      · rw [if_pos hs] at hx
        exact ih _ _ hx
      · rw [if_neg hs] at hx
        cases hl : lookupSmelt m (smeltKey i o) with
        | some e =>
          rw [hl] at hx
          rcases List.mem_cons.mp hx with rfl | hx'
          · exact ⟨_, _, _, rfl⟩
          · exact ih _ _ hx'
        | none =>
          rw [hl] at hx
          exact ih _ _ hx
    | collect t c =>
      simp only [smeltEmit] at hx
      exact ih _ _ hx
    | craft t c =>
      simp only [smeltEmit] at hx
      exact ih _ _ hx
    | other s =>
      simp only [smeltEmit] at hx
      exact ih _ _ hx

/-- Everything the craft emission pass emits is a craft task. -/
theorem mem_craftEmit (m : List (String × Nat)) :
    ∀ (ts : List Task) (seen : List String) (x : Task),
      x ∈ craftEmit m ts seen → ∃ t c, x = Task.craft t c := by
  intro ts seen x hx
  rw [craftEmit_eq] at hx
  obtain ⟨t, -, rfl⟩ := List.mem_map.mp hx
  exact ⟨_, _, rfl⟩

/-- Filtering keeps a list whose members all satisfy the predicate. -/
theorem filter_eq_self_of_true (p : Task → Bool) (l : List Task)
    (h : ∀ x ∈ l, p x = true) : l.filter p = l := by
  induction l with
  | nil => rfl
  | cons hd tl ih =>
    simp only [List.filter, h hd (List.mem_cons_self hd tl)]
    exact congrArg _ (ih fun x hx => h x (List.mem_cons_of_mem hd hx))

/-- Filtering empties a list whose members all falsify the predicate. -/
theorem filter_eq_nil_of_false (p : Task → Bool) (l : List Task)
    (h : ∀ x ∈ l, p x = false) : l.filter p = [] := by
  induction l with
  | nil => rfl
  | cons hd tl ih =>
    simp only [List.filter, h hd (List.mem_cons_self hd tl)]
    exact ih fun x hx => h x (List.mem_cons_of_mem hd hx)

/-- Claim C8: in the merged plan there is exactly one Collect per
distinct collect target of the raw task list, in first-occurrence order,
and its count is the sum of all collect demands for that target (two
sibling branches that both bottom out in the same raw material therefore
collapse into a single summed Collect, never two entries). -/
theorem claim8_collect_merge (ts : List Task) :
    (mergeTasks ts).filter isCollectTask =
      (dedupSeen [] (collectTargetsOf ts)).map
        (fun t => Task.collect t (collectSumOf ts t)) := by
  simp only [mergeTasks]
  rw [List.filter_append, List.filter_append, List.filter_append]
  rw [filter_eq_self_of_true _ _ (by
    intro x hx
    obtain ⟨p, -, rfl⟩ := List.mem_map.mp hx
    rfl)]
  rw [filter_eq_nil_of_false _ _ (by
    intro x hx
    obtain ⟨i, o, c, rfl⟩ := mem_smeltEmit _ _ _ _ hx
    rfl)]
  rw [filter_eq_nil_of_false _ _ (by
    intro x hx
    obtain ⟨t, c, rfl⟩ := mem_craftEmit _ _ _ _ hx
    rfl)]
  rw [filter_eq_nil_of_false _ _ (by
    intro x hx
    have := List.of_mem_filter hx
    cases x with
    | other s => rfl
    | collect t c => simp [isOtherTask] at this
    | smelt i o c => simp [isOtherTask] at this
    | craft t c => simp [isOtherTask] at this)]
  simp only [List.append_nil]
  rw [collectFold_eq, List.map_map]
  rfl

/-- Claim C2 (amended): in the merged plan there is exactly one Craft per
distinct craft target of the raw task list, positioned by the target's
first occurrence, and its count is the sum of all counts written for that
target (the grouping pass accumulates with `+=`, so later writes add to
earlier ones rather than superseding them; see the claim C2
counterexample). -/
theorem claim2_craft_merge (ts : List Task) :
    (mergeTasks ts).filter isCraftTask =
      (dedupSeen [] (craftTargetsOf ts)).map
        (fun t => Task.craft t (craftSumOf ts t)) := by
  simp only [mergeTasks]
  rw [List.filter_append, List.filter_append, List.filter_append]
  rw [filter_eq_nil_of_false _ _ (by
    intro x hx
    obtain ⟨p, -, rfl⟩ := List.mem_map.mp hx
    rfl)]
  rw [filter_eq_nil_of_false _ _ (by
    intro x hx
    obtain ⟨i, o, c, rfl⟩ := mem_smeltEmit _ _ _ _ hx
    rfl)]
  rw [filter_eq_self_of_true _ _ (by
    intro x hx
    obtain ⟨t, c, rfl⟩ := mem_craftEmit _ _ _ _ hx
    rfl)]
  rw [filter_eq_nil_of_false _ _ (by
    intro x hx
    have := List.of_mem_filter hx
    cases x with
    | other s => rfl
    | collect t c => simp [isOtherTask] at this
    | smelt i o c => simp [isOtherTask] at this
    | craft t c => simp [isOtherTask] at this)]
  simp only [List.nil_append, List.append_nil]
  rw [craftEmit_eq]
  refine List.map_congr_left ?_
  intro t _
  have hl := craftFold_lookup ts [] t
  simp only [lookupCount] at hl
  simp [hl]

/-- The collect grouping pass over a concatenation. -/
theorem collectFold_append (l1 l2 : List Task) :
    ∀ acc, collectFold acc (l1 ++ l2) = collectFold (collectFold acc l1) l2 := by
  induction l1 with
  | nil => intro acc; rfl
  | cons hd tl ih =>
    intro acc
    cases hd <;> simp only [List.cons_append, collectFold] <;> exact ih _

/-- The craft grouping pass over a concatenation. -/
theorem craftFold_append (l1 l2 : List Task) :
    ∀ acc, craftFold acc (l1 ++ l2) = craftFold (craftFold acc l1) l2 := by
  induction l1 with
  | nil => intro acc; rfl
  | cons hd tl ih =>
    intro acc
    cases hd <;> simp only [List.cons_append, craftFold] <;> exact ih _

/-- The smelt grouping pass over a concatenation. -/
theorem smeltFold_append (l1 l2 : List Task) :
    ∀ acc, smeltFold acc (l1 ++ l2) = smeltFold (smeltFold acc l1) l2 := by
  induction l1 with
  | nil => intro acc; rfl
  | cons hd tl ih =>
    intro acc
    cases hd <;> simp only [List.cons_append, smeltFold] <;> exact ih _

/-- The collect grouping pass ignores a list without collect tasks. -/
theorem collectFold_no (l : List Task)
    (h : ∀ x ∈ l, isCollectTask x = false) :
    ∀ acc, collectFold acc l = acc := by
  induction l with
  | nil => intro acc; rfl
  | cons hd tl ih =>
    intro acc
    cases hd with
    | collect t c => simp [isCollectTask] at h
    | smelt i o c =>
      simp only [collectFold]
      exact ih (fun x hx => h x (List.mem_cons_of_mem _ hx)) acc
    | craft t c =>
      simp only [collectFold]
      exact ih (fun x hx => h x (List.mem_cons_of_mem _ hx)) acc
    | other s =>
      simp only [collectFold]
      exact ih (fun x hx => h x (List.mem_cons_of_mem _ hx)) acc

/-- The craft grouping pass ignores a list without craft tasks. -/
theorem craftFold_no (l : List Task)
    (h : ∀ x ∈ l, isCraftTask x = false) :
    ∀ acc, craftFold acc l = acc := by
  induction l with
  | nil => intro acc; rfl
  | cons hd tl ih =>
    intro acc
    cases hd with
    | craft t c => simp [isCraftTask] at h
    | smelt i o c =>
      simp only [craftFold]
      exact ih (fun x hx => h x (List.mem_cons_of_mem _ hx)) acc
    | collect t c =>
      simp only [craftFold]
      exact ih (fun x hx => h x (List.mem_cons_of_mem _ hx)) acc
    | other s =>
      simp only [craftFold]
      exact ih (fun x hx => h x (List.mem_cons_of_mem _ hx)) acc

/-- The smelt grouping pass ignores a list without smelt tasks. -/
theorem smeltFold_no (l : List Task)
    (h : ∀ x ∈ l, isSmeltTask x = false) :
    ∀ acc, smeltFold acc l = acc := by
  induction l with
  | nil => intro acc; rfl
  | cons hd tl ih =>
    intro acc
    cases hd with
    | smelt i o c => simp [isSmeltTask] at h
    | collect t c =>
      simp only [smeltFold]
      exact ih (fun x hx => h x (List.mem_cons_of_mem _ hx)) acc
    | craft t c =>
      simp only [smeltFold]
      exact ih (fun x hx => h x (List.mem_cons_of_mem _ hx)) acc
    | other s =>
      simp only [smeltFold]
      exact ih (fun x hx => h x (List.mem_cons_of_mem _ hx)) acc

/-- Folding collect tasks made from a distinct-key association list
rebuilds that list behind the accumulator. -/
theorem collectFold_rebuild (m : List (String × Nat)) :
    ∀ acc, (((acc ++ m).map Prod.fst).Nodup) →
      collectFold acc (m.map (fun p => Task.collect p.1 p.2)) = acc ++ m := by
  induction m with
  | nil => intro acc _; simp [collectFold]
  | cons hd tl ih =>
    intro acc h
    obtain ⟨k, v⟩ := hd
    have hk : k ∉ acc.map Prod.fst := by
      simp only [List.map_append, List.nodup_append, List.map_cons] at h
      intro hmem
      exact h.2.2 hmem (List.mem_cons_self _ _)
    simp only [List.map_cons, collectFold, bump_of_notMem acc k v hk]
    have hre : ((acc ++ [(k, v)]) ++ tl).map Prod.fst |>.Nodup := by
      simpa [List.append_assoc] using h
    rw [ih (acc ++ [(k, v)]) hre]
    simp

/-- Folding craft tasks made from a distinct-key association list
rebuilds that list behind the accumulator. -/
theorem craftFold_rebuild (m : List (String × Nat)) :
    ∀ acc, (((acc ++ m).map Prod.fst).Nodup) →
      craftFold acc (m.map (fun p => Task.craft p.1 p.2)) = acc ++ m := by
  induction m with
  | nil => intro acc _; simp [craftFold]
  | cons hd tl ih =>
    intro acc h
    obtain ⟨k, v⟩ := hd
    have hk : k ∉ acc.map Prod.fst := by
      simp only [List.map_append, List.nodup_append, List.map_cons] at h
      intro hmem
      exact h.2.2 hmem (List.mem_cons_self _ _)
    simp only [List.map_cons, craftFold, bump_of_notMem acc k v hk]
    have hre : ((acc ++ [(k, v)]) ++ tl).map Prod.fst |>.Nodup := by
      simpa [List.append_assoc] using h
    rw [ih (acc ++ [(k, v)]) hre]
    simp

/-- Keys after a smelt accumulation step. -/
theorem keys_bumpSmelt (m : List (String × SmeltEntry)) (i o : String)
    (c : Nat) :
    (bumpSmelt m i o c).map Prod.fst =
      if smeltKey i o ∈ m.map Prod.fst then m.map Prod.fst
      else m.map Prod.fst ++ [smeltKey i o] := by
  induction m with
  | nil => simp [bumpSmelt]
  | cons hd tl ih =>
    obtain ⟨a, e⟩ := hd
    by_cases hak : a = smeltKey i o
    · subst hak
      simp [bumpSmelt]
    · have hka : ¬(smeltKey i o = a) := fun hh => hak hh.symm
      simp only [bumpSmelt, if_neg hak, List.map_cons, ih, List.mem_cons]
      by_cases hk : smeltKey i o ∈ tl.map Prod.fst
      · simp [hk, hka]
      · simp [hk, hka]

/-- A fresh smelt key is appended at the end. -/
theorem bumpSmelt_of_notMem (m : List (String × SmeltEntry)) (i o : String)
    (c : Nat) (h : smeltKey i o ∉ m.map Prod.fst) :
    bumpSmelt m i o c = m ++ [(smeltKey i o, ⟨i, o, c⟩)] := by
  induction m with
  | nil => simp [bumpSmelt]
  | cons hd tl ih =>
    obtain ⟨a, e⟩ := hd
    simp only [List.map_cons, List.mem_cons, not_or] at h
    obtain ⟨h1, h2⟩ := h
    have hak : ¬(a = smeltKey i o) := fun hh => h1 hh.symm
    simp only [bumpSmelt, if_neg hak, List.cons_append, List.cons.injEq,
      true_and]
    exact ih h2

/-- Keys produced by the smelt grouping pass: the accumulator's keys
followed by the first occurrences of the smelt keys. -/
theorem smeltFold_keys (ts : List Task) :
    ∀ (acc : List (String × SmeltEntry)),
      (smeltFold acc ts).map Prod.fst =
        acc.map Prod.fst ++
          dedupSeen (acc.map Prod.fst) (smeltKeysOf ts) := by
  induction ts with
  | nil => intro acc; simp [smeltFold, smeltKeysOf, dedupSeen]
  | cons hd tl ih =>
    intro acc
    cases hd with
    | smelt i o c =>
      simp only [smeltFold, smeltKeysOf, ih, keys_bumpSmelt, dedupSeen]
      by_cases hk : smeltKey i o ∈ acc.map Prod.fst
      · rw [if_pos hk, if_pos hk]
      · rw [if_neg hk, if_neg hk, List.append_assoc, List.singleton_append]
        refine congrArg _ (congrArg _ ?_)
        refine dedupSeen_congr _ _ _ ?_
        intro y
        simp [or_comm]
    | collect t c => simp only [smeltFold, smeltKeysOf, ih]
    | craft t c => simp only [smeltFold, smeltKeysOf, ih]
    | other s => simp only [smeltFold, smeltKeysOf, ih]

/-- A smelt accumulation step preserves the invariant that each entry's
key is the smelt key of its stored input/output pair. -/
theorem bumpSmelt_consistent (m : List (String × SmeltEntry)) (i o : String)
    (c : Nat) (h : ∀ p ∈ m, p.1 = smeltKey p.2.input p.2.output) :
    ∀ p ∈ bumpSmelt m i o c, p.1 = smeltKey p.2.input p.2.output := by
  induction m with
  | nil =>
    intro p hp
    simp only [bumpSmelt, List.mem_singleton] at hp
    subst hp
    rfl
  | cons hd tl ih =>
    intro p hp
    obtain ⟨a, e⟩ := hd
    by_cases hak : a = smeltKey i o
    · subst hak
      simp only [bumpSmelt, if_pos rfl] at hp
      rcases List.mem_cons.mp hp with rfl | hp'
      · have := h (smeltKey i o, e) (List.mem_cons_self _ _)
        simpa using this
      · exact h p (List.mem_cons_of_mem _ hp')
    · simp only [bumpSmelt, if_neg hak] at hp
      rcases List.mem_cons.mp hp with rfl | hp'
      · exact h (a, e) (List.mem_cons_self _ _)
      · exact ih (fun q hq => h q (List.mem_cons_of_mem _ hq)) p hp'

/-- The smelt grouping pass preserves the key invariant. -/
theorem smeltFold_consistent (ts : List Task) :
    ∀ (acc : List (String × SmeltEntry)),
      (∀ p ∈ acc, p.1 = smeltKey p.2.input p.2.output) →
      ∀ p ∈ smeltFold acc ts, p.1 = smeltKey p.2.input p.2.output := by
  induction ts with
  | nil => intro acc h; exact h
  | cons hd tl ih =>
    intro acc h
    cases hd with
    | smelt i o c =>
      simp only [smeltFold]
      exact ih _ (bumpSmelt_consistent acc i o c h)
    | collect t c => simp only [smeltFold]; exact ih _ h
    | craft t c => simp only [smeltFold]; exact ih _ h
    | other s => simp only [smeltFold]; exact ih _ h

/-- Pointwise-equal partial functions filter-map identically. -/
theorem filterMap_congr_own {α β : Type} (l : List α) :
    ∀ (f g : α → Option β), (∀ a ∈ l, f a = g a) →
      l.filterMap f = l.filterMap g := by
  induction l with
  | nil => intro f g _; rfl
  | cons hd tl ih =>
    intro f g h
    simp only [List.filterMap_cons, h hd (List.mem_cons_self hd tl)]
    cases g hd with
    | none => exact ih f g (fun a ha => h a (List.mem_cons_of_mem hd ha))
    | some b =>
      exact congrArg _ (ih f g (fun a ha => h a (List.mem_cons_of_mem hd ha)))

/-- Looking up every key of a distinct-key association list and mapping
the values reproduces the value column. -/
theorem filterMap_lookupSmelt (m : List (String × SmeltEntry))
    (f : SmeltEntry → Task) :
    ((m.map Prod.fst).Nodup) →
      (m.map Prod.fst).filterMap (fun k => (lookupSmelt m k).map f) =
        m.map (fun p => f p.2) := by
  induction m with
  | nil => intro _; rfl
  | cons hd tl ih =>
    intro h
    obtain ⟨k, e⟩ := hd
    simp only [List.map_cons] at h
    obtain ⟨hk, htl⟩ := List.nodup_cons.mp h
    have hcong : (tl.map Prod.fst).filterMap
        (fun t => (lookupSmelt ((k, e) :: tl) t).map f) =
        (tl.map Prod.fst).filterMap (fun t => (lookupSmelt tl t).map f) := by
      refine filterMap_congr_own _ _ _ ?_
      intro t ht
      have htk : ¬(k = t) := fun hh => hk (hh ▸ ht)
      simp [lookupSmelt, htk]
    have hhead : lookupSmelt ((k, e) :: tl) k = some e := by
      simp [lookupSmelt]
    simp only [List.map_cons, List.filterMap_cons, hhead]
    rw [hcong, ih htl]
    rfl

/-- The smelt emission pass, in closed form: the first occurrences of the
smelt keys, each resolved through the grouped smelt map. -/
theorem smeltEmit_eq (m : List (String × SmeltEntry)) :
    ∀ (ts : List Task) (seen : List String),
      smeltEmit m ts seen =
        (dedupSeen seen (smeltKeysOf ts)).filterMap
          (fun k => (lookupSmelt m k).map
            (fun e => Task.smelt e.input e.output e.count)) := by
  intro ts
  induction ts with
  | nil => intro seen; rfl
  | cons hd tl ih =>
    intro seen
    cases hd with
    | smelt i o c =>
      simp only [smeltEmit, smeltKeysOf, dedupSeen]
      by_cases hs : smeltKey i o ∈ seen
      · rw [if_pos hs, if_pos hs]
        exact ih seen
      · rw [if_neg hs, if_neg hs]
        cases hl : lookupSmelt m (smeltKey i o) with
        | some e => simp [List.filterMap_cons, hl, ih]
        | none => simp [List.filterMap_cons, hl, ih]
    | collect t c =>
      simp only [smeltEmit, smeltKeysOf]
      exact ih seen
    | craft t c =>
      simp only [smeltEmit, smeltKeysOf]
      exact ih seen
    | other s =>
      simp only [smeltEmit, smeltKeysOf]
      exact ih seen

/-- Folding smelt tasks made from a distinct-key, key-consistent
association list rebuilds that list behind the accumulator. -/
theorem smeltFold_rebuild (m : List (String × SmeltEntry)) :
    ∀ acc, (((acc ++ m).map Prod.fst).Nodup) →
      (∀ p ∈ m, p.1 = smeltKey p.2.input p.2.output) →
      smeltFold acc
        (m.map (fun p => Task.smelt p.2.input p.2.output p.2.count)) =
        acc ++ m := by
  induction m with
  | nil => intro acc _ _; simp [smeltFold]
  | cons hd tl ih =>
    intro acc h hcons
    obtain ⟨k, e⟩ := hd
    have hke : k = smeltKey e.input e.output :=
      hcons (k, e) (List.mem_cons_self _ _)
    have hk : smeltKey e.input e.output ∉ acc.map Prod.fst := by
      simp only [List.map_append, List.nodup_append, List.map_cons] at h
      intro hmem
      refine h.2.2 hmem ?_
      rw [← hke]
      exact List.mem_cons_self _ _
    simp only [List.map_cons, smeltFold,
      bumpSmelt_of_notMem acc e.input e.output e.count hk]
    have hre : (((acc ++ [(smeltKey e.input e.output,
        (⟨e.input, e.output, e.count⟩ : SmeltEntry))]) ++ tl).map
          Prod.fst).Nodup := by
      rw [← hke]
      simpa [List.append_assoc] using h
    rw [ih _ hre (fun q hq => hcons q (List.mem_cons_of_mem _ hq))]
    rw [← hke]
    simp

/-- A task flagged as pass-through is none of collect, craft, smelt. -/
theorem isOther_shapes (x : Task) (h : isOtherTask x = true) :
    isCollectTask x = false ∧ isCraftTask x = false ∧
      isSmeltTask x = false := by
  cases x <;> simp_all [isOtherTask, isCollectTask, isCraftTask, isSmeltTask]

/-- Smelt keys of a concatenation. -/
theorem smeltKeysOf_append (l1 l2 : List Task) :
    smeltKeysOf (l1 ++ l2) = smeltKeysOf l1 ++ smeltKeysOf l2 := by
  induction l1 with
  | nil => rfl
  | cons hd tl ih =>
    cases hd <;> simp [smeltKeysOf, ih]

/-- Craft targets of a concatenation. -/
theorem craftTargetsOf_append (l1 l2 : List Task) :
    craftTargetsOf (l1 ++ l2) = craftTargetsOf l1 ++ craftTargetsOf l2 := by
  induction l1 with
  | nil => rfl
  | cons hd tl ih =>
    cases hd <;> simp [craftTargetsOf, ih]

/-- A list without smelt tasks has no smelt keys. -/
theorem smeltKeysOf_no (l : List Task)
    (h : ∀ x ∈ l, isSmeltTask x = false) : smeltKeysOf l = [] := by
  induction l with
  | nil => rfl
  | cons hd tl ih =>
    cases hd with
    | smelt i o c => simp [isSmeltTask] at h
    | collect t c =>
      exact ih fun x hx => h x (List.mem_cons_of_mem _ hx)
    | craft t c =>
      exact ih fun x hx => h x (List.mem_cons_of_mem _ hx)
    | other s =>
      exact ih fun x hx => h x (List.mem_cons_of_mem _ hx)

/-- A list without craft tasks has no craft targets. -/
theorem craftTargetsOf_no (l : List Task)
    (h : ∀ x ∈ l, isCraftTask x = false) : craftTargetsOf l = [] := by
  induction l with
  | nil => rfl
  | cons hd tl ih =>
    cases hd with
    | craft t c => simp [isCraftTask] at h
    | collect t c =>
      exact ih fun x hx => h x (List.mem_cons_of_mem _ hx)
    | smelt i o c =>
      exact ih fun x hx => h x (List.mem_cons_of_mem _ hx)
    | other s =>
      exact ih fun x hx => h x (List.mem_cons_of_mem _ hx)

/-- Smelt keys of a list of smelt tasks built from map entries. -/
theorem smeltKeysOf_map_smelt (m : List (String × SmeltEntry)) :
    smeltKeysOf (m.map (fun p => Task.smelt p.2.input p.2.output p.2.count)) =
      m.map (fun p => smeltKey p.2.input p.2.output) := by
  induction m with
  | nil => rfl
  | cons hd tl ih => simp only [List.map_cons, smeltKeysOf, ih]

/-- Craft targets of a list of craft tasks built from map entries. -/
theorem craftTargetsOf_map_craft (m : List (String × Nat)) :
    craftTargetsOf (m.map (fun p => Task.craft p.1 p.2)) =
      m.map Prod.fst := by
  induction m with
  | nil => rfl
  | cons hd tl ih => simp only [List.map_cons, craftTargetsOf, ih]

/-- The smelt section of the merged plan is the grouped smelt map, one
task per entry in map order. -/
theorem smeltEmit_map_form (ts : List Task) :
    smeltEmit (smeltFold [] ts) ts [] =
      (smeltFold [] ts).map
        (fun p => Task.smelt p.2.input p.2.output p.2.count) := by
  rw [smeltEmit_eq]
  have hkeys : (smeltFold [] ts).map Prod.fst =
      dedupSeen [] (smeltKeysOf ts) := by
    simpa using smeltFold_keys ts []
  rw [← hkeys]
  exact filterMap_lookupSmelt _ _
    (by rw [hkeys]; exact (dedupSeen_spec _ _).1)

/-- The craft section of the merged plan is the grouped craft map, one
task per entry in map order. -/
theorem craftEmit_map_form (ts : List Task) :
    craftEmit (craftFold [] ts) ts [] =
      (craftFold [] ts).map (fun p => Task.craft p.1 p.2) := by
  rw [craftEmit_eq]
  have hkeys : (craftFold [] ts).map Prod.fst =
      dedupSeen [] (craftTargetsOf ts) := by
    simpa using craftFold_keys ts []
  have hnd : ((craftFold [] ts).map Prod.fst).Nodup := by
    rw [hkeys]
    exact (dedupSeen_spec _ _).1
  rw [← hkeys]
  conv_rhs => rw [assoc_eq_keys_map (craftFold [] ts) hnd]
  rw [List.map_map, List.map_map, List.map_map]
  rfl

/-- Merging leaves the collect grouping map unchanged. -/
theorem mergeTasks_collectFold (ts : List Task) :
    collectFold [] (mergeTasks ts) = collectFold [] ts := by
  simp only [mergeTasks, collectFold_append]
  rw [collectFold_no (ts.filter isOtherTask) (by
    intro x hx
    exact (isOther_shapes x (List.of_mem_filter hx)).1)]
  rw [collectFold_no (craftEmit (craftFold [] ts) ts []) (by
    intro x hx
    obtain ⟨t, c, rfl⟩ := mem_craftEmit _ _ _ _ hx
    rfl)]
  rw [collectFold_no (smeltEmit (smeltFold [] ts) ts []) (by
    intro x hx
    obtain ⟨i, o, c, rfl⟩ := mem_smeltEmit _ _ _ _ hx
    rfl)]
  have hnd : ((([] : List (String × Nat)) ++ collectFold [] ts).map
      Prod.fst).Nodup := by
    simp only [List.nil_append]
    rw [show (collectFold [] ts).map Prod.fst =
        dedupSeen [] (collectTargetsOf ts) by
      simpa using collectFold_keys ts []]
    exact (dedupSeen_spec _ _).1
  simpa using collectFold_rebuild (collectFold [] ts) [] hnd

/-- Merging leaves the craft grouping map unchanged. -/
theorem mergeTasks_craftFold (ts : List Task) :
    craftFold [] (mergeTasks ts) = craftFold [] ts := by
  simp only [mergeTasks, craftFold_append]
  rw [craftFold_no (ts.filter isOtherTask) (by
    intro x hx
    exact (isOther_shapes x (List.of_mem_filter hx)).2.1)]
  rw [craftEmit_map_form]
  rw [craftFold_no (smeltEmit (smeltFold [] ts) ts []) (by
    intro x hx
    obtain ⟨i, o, c, rfl⟩ := mem_smeltEmit _ _ _ _ hx
    rfl)]
  rw [craftFold_no ((collectFold [] ts).map (fun p => Task.collect p.1 p.2))
    (by
    intro x hx
    obtain ⟨p, -, rfl⟩ := List.mem_map.mp hx
    rfl)]
  have hnd : ((([] : List (String × Nat)) ++ craftFold [] ts).map
      Prod.fst).Nodup := by
    simp only [List.nil_append]
    rw [show (craftFold [] ts).map Prod.fst =
        dedupSeen [] (craftTargetsOf ts) by
      simpa using craftFold_keys ts []]
    exact (dedupSeen_spec _ _).1
  simpa using craftFold_rebuild (craftFold [] ts) [] hnd

/-- Merging leaves the smelt grouping map unchanged. -/
theorem mergeTasks_smeltFold (ts : List Task) :
    smeltFold [] (mergeTasks ts) = smeltFold [] ts := by
  simp only [mergeTasks, smeltFold_append]
  rw [smeltFold_no (ts.filter isOtherTask) (by
    intro x hx
    exact (isOther_shapes x (List.of_mem_filter hx)).2.2)]
  rw [smeltFold_no (craftEmit (craftFold [] ts) ts []) (by
    intro x hx
    obtain ⟨t, c, rfl⟩ := mem_craftEmit _ _ _ _ hx
    rfl)]
  rw [smeltEmit_map_form]
  rw [smeltFold_no ((collectFold [] ts).map (fun p => Task.collect p.1 p.2))
    (by
    intro x hx
    obtain ⟨p, -, rfl⟩ := List.mem_map.mp hx
    rfl)]
  have hnd : ((([] : List (String × SmeltEntry)) ++ smeltFold [] ts).map
      Prod.fst).Nodup := by
    simp only [List.nil_append]
    rw [show (smeltFold [] ts).map Prod.fst =
        dedupSeen [] (smeltKeysOf ts) by
      simpa using smeltFold_keys ts []]
    exact (dedupSeen_spec _ _).1
  simpa using smeltFold_rebuild (smeltFold [] ts) [] hnd
    (smeltFold_consistent ts [] (by simp))

/-- Merging leaves the pass-through tasks unchanged. -/
theorem mergeTasks_others (ts : List Task) :
    (mergeTasks ts).filter isOtherTask = ts.filter isOtherTask := by
  simp only [mergeTasks, List.filter_append]
  rw [filter_eq_nil_of_false _ _ (by
    intro x hx
    obtain ⟨p, -, rfl⟩ := List.mem_map.mp hx
    rfl)]
  rw [filter_eq_nil_of_false _ _ (by
    intro x hx
    obtain ⟨i, o, c, rfl⟩ := mem_smeltEmit _ _ _ _ hx
    rfl)]
  rw [filter_eq_nil_of_false _ _ (by
    intro x hx
    obtain ⟨t, c, rfl⟩ := mem_craftEmit _ _ _ _ hx
    rfl)]
  rw [filter_eq_self_of_true _ _ (fun x hx => List.of_mem_filter hx)]
  simp

/-- Re-running the smelt emission over a merged list reproduces the
merged list's smelt section. -/
theorem mergeTasks_smeltEmit (ts : List Task) :
    smeltEmit (smeltFold [] ts) (mergeTasks ts) [] =
      smeltEmit (smeltFold [] ts) ts [] := by
  rw [smeltEmit_eq, smeltEmit_eq]
  have hkeys : (smeltFold [] ts).map Prod.fst =
      dedupSeen [] (smeltKeysOf ts) := by
    simpa using smeltFold_keys ts []
  have hnd : ((smeltFold [] ts).map Prod.fst).Nodup := by
    rw [hkeys]
    exact (dedupSeen_spec _ _).1
  have hM : smeltKeysOf (mergeTasks ts) = (smeltFold [] ts).map Prod.fst := by
    simp only [mergeTasks, smeltKeysOf_append]
    rw [smeltKeysOf_no (ts.filter isOtherTask) (by
      intro x hx
      exact (isOther_shapes x (List.of_mem_filter hx)).2.2)]
    rw [smeltKeysOf_no (craftEmit (craftFold [] ts) ts []) (by
      intro x hx
      obtain ⟨t, c, rfl⟩ := mem_craftEmit _ _ _ _ hx
      rfl)]
    rw [smeltKeysOf_no ((collectFold [] ts).map
        (fun p => Task.collect p.1 p.2)) (by
      intro x hx
      obtain ⟨p, -, rfl⟩ := List.mem_map.mp hx
      rfl)]
    rw [smeltEmit_map_form, smeltKeysOf_map_smelt]
    simp only [List.nil_append, List.append_nil]
    refine List.map_congr_left ?_
    intro p hp
    exact (smeltFold_consistent ts [] (by simp) p hp).symm
  rw [hM, dedupSeen_eq_self _ _ hnd (by simp), hkeys]

/-- Re-running the craft emission over a merged list reproduces the
merged list's craft section. -/
theorem mergeTasks_craftEmit (ts : List Task) :
    craftEmit (craftFold [] ts) (mergeTasks ts) [] =
      craftEmit (craftFold [] ts) ts [] := by
  rw [craftEmit_eq, craftEmit_eq]
  have hkeys : (craftFold [] ts).map Prod.fst =
      dedupSeen [] (craftTargetsOf ts) := by
    simpa using craftFold_keys ts []
  have hnd : ((craftFold [] ts).map Prod.fst).Nodup := by
    rw [hkeys]
    exact (dedupSeen_spec _ _).1
  have hM : craftTargetsOf (mergeTasks ts) =
      (craftFold [] ts).map Prod.fst := by
    simp only [mergeTasks, craftTargetsOf_append]
    rw [craftTargetsOf_no (ts.filter isOtherTask) (by
      intro x hx
      exact (isOther_shapes x (List.of_mem_filter hx)).2.1)]
    rw [craftTargetsOf_no (smeltEmit (smeltFold [] ts) ts []) (by
      intro x hx
      obtain ⟨i, o, c, rfl⟩ := mem_smeltEmit _ _ _ _ hx
      rfl)]
    rw [craftTargetsOf_no ((collectFold [] ts).map
        (fun p => Task.collect p.1 p.2)) (by
      intro x hx
      obtain ⟨p, -, rfl⟩ := List.mem_map.mp hx
      rfl)]
    rw [craftEmit_map_form, craftTargetsOf_map_craft]
    simp
  rw [hM, dedupSeen_eq_self _ _ hnd (by simp), hkeys]

/-- Claim C10: the Task Merger is idempotent — merging an already merged
action list returns it unchanged, with the same actions, fields, counts
and order. -/
theorem claim10_merge_idempotent (ts : List Task) :
    mergeTasks (mergeTasks ts) = mergeTasks ts := by
  have expand : ∀ l : List Task, mergeTasks l =
      (collectFold [] l).map (fun p => Task.collect p.1 p.2) ++
        smeltEmit (smeltFold [] l) l [] ++
        craftEmit (craftFold [] l) l [] ++ l.filter isOtherTask :=
    fun l => rfl
  rw [expand (mergeTasks ts), mergeTasks_collectFold, mergeTasks_smeltFold,
    mergeTasks_craftFold, mergeTasks_smeltEmit, mergeTasks_craftEmit,
    mergeTasks_others, ← expand ts]

end AllenIverson
